import Mathlib

/-!
Verification development for the experiment-harness utilities of the
probabilistic-graphical-models project (`src/utils.py`).

The Python module is a thin data-processing pipeline over pandas / scikit-learn:
`load_data` reads a headerless 10-column CSV, `split_data` partitions it 80/20
with `train_test_split(..., random_state=42)`, `discretize_data` bins continuous
columns with `KBinsDiscretizer(encode='ordinal', strategy='uniform')` fitted on
the training partition, `get_metrics` reports rounded accuracy/precision/recall/f1,
and `run_scikit_experiment` selects a baseline classifier by label.

Embedding conventions:
* A pandas `DataFrame` is a `Table`: a list of column names plus a list of rows,
  with numeric cells modelled as exact rationals (`Rat`) in place of floats.
* A pandas `Series` (a single unlabelled-axis column carrying a `.name`) is the
  `PdValue.series` constructor; a `DataFrame` stored in the same dict slot is
  `PdValue.frame`.  The split dictionary `{'train': {'X', 'y'}, 'test': {'X', 'y'}}`
  is the `Split` structure.
* The external libraries are modelled at the interface the source uses:
  `KBinsDiscretizer` by exact uniform bin edges and `searchsorted` on interior
  edges, `train_test_split` by a deterministic pseudo-random permutation of row
  indices seeded by `random_state`, the metric functions by their defining
  counting formulas, and `read_csv` by lookup in an explicit file-store value.
* Python object mutation (`discretize_data` deep-copies its argument and then
  assigns into the copied frames in place) is modelled twice, once at value
  level (`discretizeSplit`) and once against an explicit reference heap
  (`discretize_data`), so that the no-mutation guarantee is a real statement
  about heap cells rather than a vacuity of pure functions.
-/

/-- A pandas DataFrame: named columns over rows of rational cells. -/
structure Table where
  cols : List String
  rows : List (List Rat)
deriving DecidableEq

/-- A value stored in one slot of the split dictionary: either a DataFrame or a
named Series (pandas `df[col]` keeps the column label as the Series name). -/
inductive PdValue where
  | frame : Table → PdValue
  | series : String → List Rat → PdValue
deriving DecidableEq

/-- True exactly on the `frame` constructor. -/
def PdValue.isFrame : PdValue → Bool
  | .frame _ => true
  | .series _ _ => false

/-- The dict `{'train': {'X': _, 'y': _}, 'test': {'X': _, 'y': _}}` returned by
`split_data` and transformed by `discretize_data`. -/
structure Split where
  trainX : Table
  trainY : PdValue
  testX : Table
  testY : PdValue
deriving DecidableEq

/-- Index of the first column with the given label (pandas label lookup). -/
def colIdx : List String → String → Option Nat
  | [], _ => none
  | c' :: rest, c => if c' = c then some 0 else (colIdx rest c).map (· + 1)

/-- Column `j` of a table, read positionally out of every row. -/
def colAt (t : Table) (j : Nat) : List Rat :=
  t.rows.map (fun r => r.getD j 0)

/-- The values of the column labelled `c` (pandas `t[c]`); empty when absent. -/
def getColVals (t : Table) (c : String) : List Rat :=
  match colIdx t.cols c with
  | some j => colAt t j
  | none => []

/-- Column assignment `t[c] = vs` (pandas): overwrite the existing column, or
append a fresh one when the label is new. -/
def setColVals (t : Table) (c : String) (vs : List Rat) : Table :=
  match colIdx t.cols c with
  | some j => ⟨t.cols, List.zipWith (fun r v => r.set j v) t.rows vs⟩
  | none => ⟨t.cols ++ [c], List.zipWith (fun r v => r ++ [v]) t.rows vs⟩

/-- Cell of row `r` under the column labelled `c` of a table with columns `cols`. -/
def cellAt (cols : List String) (r : List Rat) (c : String) : Rat :=
  match colIdx cols c with
  | some j => r.getD j 0
  | none => 0

/-- Column-subset selection `t[names]` (pandas), keeping `names` order. -/
def selectColumns (t : Table) (names : List String) : Table :=
  ⟨names, t.rows.map (fun r => names.map (cellAt t.cols r))⟩

/-- Row selection by positional indices (pandas `iloc`-style, as used by
`train_test_split` to realise a shuffled partition). -/
def selectRows (t : Table) (idxs : List Nat) : Table :=
  ⟨t.cols, idxs.map (fun i => t.rows.getD i [])⟩

/-- Column removal `t.drop(c, axis=1)` (pandas). -/
def dropColumn (t : Table) (c : String) : Table :=
  ⟨t.cols.filter (fun s => !(s == c)),
   t.rows.map (fun r => ((t.cols.zip r).filter (fun p => !(p.1 == c))).map Prod.snd)⟩

/-- The raw values backing a split target slot: the single column of a
one-column DataFrame, or the values of a Series. -/
def pdVals : PdValue → List Rat
  | .frame t => colAt t 0
  | .series _ vs => vs

/-- Rectangularity: every row has exactly one cell per column. -/
def Table.WF (t : Table) : Prop :=
  ∀ r ∈ t.rows, r.length = t.cols.length

instance (t : Table) : Decidable t.WF :=
  inferInstanceAs (Decidable (∀ r ∈ t.rows, r.length = t.cols.length))

/-- Minimum of a column, `np.min` on a nonempty column (0 as a junk value on
the empty column, which scikit-learn rejects before reaching this point). -/
def listMin : List Rat → Rat
  | [] => 0
  | x :: xs => xs.foldl min x

/-- Maximum of a column, `np.max` analogously. -/
def listMax : List Rat → Rat
  | [] => 0
  | x :: xs => xs.foldl max x

/-- Interior bin edges fitted by `KBinsDiscretizer(strategy='uniform')` on one
feature: `np.linspace(col_min, col_max, n_bins + 1)` without its two outer
edges.  A constant feature collapses to a single bin (no interior edge), as in
scikit-learn's constant-feature special case. -/
def uniformBinEdges (xs : List Rat) (n_bins : Nat) : List Rat :=
  let mn := listMin xs
  let mx := listMax xs
  if mn = mx then []
  else (List.range (n_bins - 1)).map
    (fun (j : Nat) => mn + (mx - mn) * ((j : Rat) + 1) / (n_bins : Rat))

/-- The fit step `est.fit(sub)`: interior edges per feature of the sub-frame. -/
def kbinsFit (sub : Table) (n_bins : Nat) : List (List Rat) :=
  (List.range sub.cols.length).map (fun j => uniformBinEdges (colAt sub j) n_bins)

/-- Ordinal encoding of one value: `np.searchsorted(interior_edges, x, side='right')`,
the number of interior edges not exceeding `x` (out-of-range values clip to the
outermost bins by construction). -/
def binIndex (edges : List Rat) (x : Rat) : Rat :=
  ((edges.countP (fun e => decide (e ≤ x)) : Nat) : Rat)

/-- The transform step `est.transform(sub)` applied feature-wise. -/
def kbinsTransform (edges : List (List Rat)) (sub : Table) : Table :=
  ⟨sub.cols, sub.rows.map (fun r => List.zipWith binIndex edges r)⟩

/-- The columns of a sub-frame as value lists, in positional order. -/
def subColumns (sub : Table) : List (List Rat) :=
  (List.range sub.cols.length).map (colAt sub)

/-- Sub-frame assignment `t[names] = sub` (pandas): column-by-column assignment
of the labelled columns. -/
def setColumns (t : Table) (names : List String) (sub : Table) : Table :=
  (names.zip (subColumns sub)).foldl (fun acc p => setColVals acc p.1 p.2) t

/-- Value-level translation of `discretize_data(data, continuous_attrs, n_bins, y_on)`
from `src/utils.py`.  The Python function first takes `deepcopy(data)`; under
value semantics the copy is the value itself, so the body transforms the input
split directly.  The `'class'` branch fits on the training features and
transforms both feature tables; the `'n_children'` branch adjoins the target to
deep copies of the feature tables, fits and transforms jointly, then splits the
target back out as a Series; any other `y_on` falls through both branches and
the (copied) input is returned unchanged. -/
def discretizeSplit (data : Split) (continuous_attrs : List String) (n_bins : Nat)
    (y_on : String) : Split :=
  let X_train := data.trainX
  let X_test := data.testX
  let y_train := data.trainY
  let y_test := data.testY
  if y_on = "class" then
    let edges := kbinsFit (selectColumns X_train continuous_attrs) n_bins
    let X_train := setColumns X_train continuous_attrs
      (kbinsTransform edges (selectColumns X_train continuous_attrs))
    let X_test := setColumns X_test continuous_attrs
      (kbinsTransform edges (selectColumns X_test continuous_attrs))
    ⟨X_train, y_train, X_test, y_test⟩
  else if y_on = "n_children" then
    let train_ds := X_train
    let test_ds := X_test
    let train_ds := setColVals train_ds "n_children" (pdVals y_train)
    let test_ds := setColVals test_ds "n_children" (pdVals y_test)
    let edges := kbinsFit (selectColumns train_ds continuous_attrs) n_bins
    let train_ds := setColumns train_ds continuous_attrs
      (kbinsTransform edges (selectColumns train_ds continuous_attrs))
    let test_ds := setColumns test_ds continuous_attrs
      (kbinsTransform edges (selectColumns test_ds continuous_attrs))
    ⟨selectColumns train_ds X_train.cols,
     PdValue.series "n_children" (getColVals train_ds "n_children"),
     selectColumns test_ds X_train.cols,
     PdValue.series "n_children" (getColVals test_ds "n_children")⟩
  else
    data

/-- A store of Python heap objects: a fresh-reference counter together with the
cells allocated so far.  Mutation claims about `discretize_data` are stated
against this heap. -/
structure Heap where
  next : Nat
  mem : List (Nat × PdValue)
deriving DecidableEq

/-- Cell lookup. -/
def Heap.get (h : Heap) (r : Nat) : Option PdValue :=
  (h.mem.find? (fun q => q.1 == r)).map Prod.snd

/-- Cell lookup with a junk default, for total modelling of dereferences. -/
def Heap.getV (h : Heap) (r : Nat) : PdValue :=
  (h.get r).getD (.frame ⟨[], []⟩)

/-- Allocation of a fresh cell (object construction / `deepcopy` of one object). -/
def Heap.alloc (h : Heap) (v : PdValue) : Heap × Nat :=
  (⟨h.next + 1, (h.next, v) :: h.mem⟩, h.next)

/-- In-place overwrite of the object behind an existing reference. -/
def Heap.write (h : Heap) (r : Nat) (v : PdValue) : Heap :=
  ⟨h.next, h.mem.map (fun q => if q.1 == r then (r, v) else q)⟩

/-- The caller-visible split dictionary: references to its four slot objects. -/
structure SplitRef where
  trainX : Nat
  trainY : Nat
  testX : Nat
  testY : Nat
deriving DecidableEq

/-- Reading a slot that the code uses as a DataFrame. -/
def asTable : PdValue → Table
  | .frame t => t
  | .series n vs => ⟨[n], vs.map (fun v => [v])⟩

/-- Heap-level translation of `discretize_data` from `src/utils.py`, keeping
the object-identity story of the source: `_dataset = deepcopy(data)` allocates
fresh cells copying the four slot objects; in the `'class'` branch the aliases
`X_train`/`X_test` into the copy are mutated in place (the later dict
re-assignments re-bind the same objects); in the `'n_children'` branch the
locals `train_ds`/`test_ds` are fresh deep copies mutated locally, and the four
dict slots are re-pointed at newly constructed objects; the fall-through branch
returns the untouched copy. -/
def discretize_data (h : Heap) (data : SplitRef) (continuous_attrs : List String)
    (n_bins : Nat) (y_on : String) : Heap × SplitRef :=
  let (h1, rTrainX) := h.alloc (h.getV data.trainX)
  let (h2, rTrainY) := h1.alloc (h.getV data.trainY)
  let (h3, rTestX) := h2.alloc (h.getV data.testX)
  let (h4, rTestY) := h3.alloc (h.getV data.testY)
  let X_train := asTable (h4.getV rTrainX)
  let X_test := asTable (h4.getV rTestX)
  let y_train := h4.getV rTrainY
  let y_test := h4.getV rTestY
  if y_on = "class" then
    let edges := kbinsFit (selectColumns X_train continuous_attrs) n_bins
    let X_train := setColumns X_train continuous_attrs
      (kbinsTransform edges (selectColumns X_train continuous_attrs))
    let X_test := setColumns X_test continuous_attrs
      (kbinsTransform edges (selectColumns X_test continuous_attrs))
    let h5 := h4.write rTrainX (.frame X_train)
    let h6 := h5.write rTestX (.frame X_test)
    (h6, ⟨rTrainX, rTrainY, rTestX, rTestY⟩)
  else if y_on = "n_children" then
    let train_ds := X_train
    let test_ds := X_test
    let train_ds := setColVals train_ds "n_children" (pdVals y_train)
    let test_ds := setColVals test_ds "n_children" (pdVals y_test)
    let edges := kbinsFit (selectColumns train_ds continuous_attrs) n_bins
    let train_ds := setColumns train_ds continuous_attrs
      (kbinsTransform edges (selectColumns train_ds continuous_attrs))
    let test_ds := setColumns test_ds continuous_attrs
      (kbinsTransform edges (selectColumns test_ds continuous_attrs))
    let (h5, rX1) := h4.alloc (.frame (selectColumns train_ds X_train.cols))
    let (h6, rX2) := h5.alloc (.frame (selectColumns test_ds X_train.cols))
    let (h7, rY1) := h6.alloc (.series "n_children" (getColVals train_ds "n_children"))
    let (h8, rY2) := h7.alloc (.series "n_children" (getColVals test_ds "n_children"))
    (h8, ⟨rX1, rY1, rX2, rY2⟩)
  else
    (h4, ⟨rTrainX, rTrainY, rTestX, rTestY⟩)

/-- Mixing function standing in for the MT19937 draws behind
`np.random.RandomState(seed).permutation`; its exact values are irrelevant to
the verified properties, only that it is a deterministic function of the seed. -/
def shuffleKey (seed i : Nat) : Nat :=
  (1103515245 * (seed + i) + 12345) % 2147483648

/-- Model of `RandomState(seed).permutation(n)`: a deterministic pseudo-random
permutation of `0..n-1`, realised by sorting indices on a seed-keyed hash. -/
def permuteIndices (seed n : Nat) : List Nat :=
  (List.range n).mergeSort (fun i j => Nat.ble (shuffleKey seed i) (shuffleKey seed j))

/-- Model of scikit-learn `train_test_split(X, y, test_size=0.2, random_state)`:
a shuffled index permutation is cut at `n_test = ceil(0.2 * n)` (the library's
`ceil(test_size * n_samples)`, here `(n + 4) / 5` in exact arithmetic); the
first `n_test` shuffled indices are the test rows and the remainder the
training rows.  When `random_state` is `None` the library draws from the
ambient global numpy generator, modelled by the explicit `ambient` seed; a
fixed `random_state` ignores the ambient state. -/
def train_test_split (ambient : Nat) (X y : Table) (random_state : Option Nat) :
    Table × Table × Table × Table :=
  let seed := random_state.getD ambient
  let n := X.rows.length
  let perm := permuteIndices seed n
  let n_test := (n + 4) / 5
  let test_idx := perm.take n_test
  let train_idx := perm.drop n_test
  (selectRows X train_idx, selectRows X test_idx, selectRows y train_idx, selectRows y test_idx)

/-- Translation of `split_data(data, y_on)` from `src/utils.py`: drop the target
column from the features, keep it as a one-column frame (`data[[y_on]]`), and
split both with `test_size=0.2, random_state=42` (the `stratify=y` argument is
commented out in the source and hence absent here).  `ambient` is the global
numpy generator state that `train_test_split` would consume if the seed were
not pinned. -/
def split_data (ambient : Nat) (data : Table) (y_on : String) : Split :=
  let X := dropColumn data y_on
  let y := selectColumns data [y_on]
  let tts := train_test_split ambient X y (some 42)
  ⟨tts.1, PdValue.frame tts.2.2.1, tts.2.1, PdValue.frame tts.2.2.2⟩

/-- The ten hardcoded CMC column names assigned by `load_data`. -/
def cmcColumns : List String :=
  ["wife_age", "wife_edu", "husband_edu", "n_children", "wife_religion",
   "wife_working", "husband_occup", "sol_index", "media_exposure",
   "class"]

/-- Model of `pd.read_csv(path, header=None)` over an explicit file store that
maps paths to already-parsed numeric rows: a missing path is the parser's
file-not-found error, an existing one yields its rows. -/
def read_csv (files : List (String × List (List Rat))) (path : String) :
    Except String (List (List Rat)) :=
  match files.find? (fun q => q.1 == path) with
  | some q => .ok q.2
  | none => .error "FileNotFoundError"

/-- Translation of `load_data(data_dir, data_file)` from `src/utils.py`: join
the path, parse the headerless file, then assign the ten fixed column names
positionally (`data.columns = [...]`, which pandas rejects with a length-
mismatch `ValueError` when the parsed column count differs from ten). -/
def load_data (files : List (String × List (List Rat))) (data_dir data_file : String) :
    Except String Table :=
  let data_path := data_dir ++ "/" ++ data_file
  match read_csv files data_path with
  | .error e => .error e
  | .ok rows =>
    if cmcColumns.length = (rows.headD []).length then .ok ⟨cmcColumns, rows⟩
    else .error "ValueError: Length mismatch"

/-- Rounding `round(x, prec)` of Python, on exact rationals: scale, round to
the nearest integer, unscale (Python breaks exact half-way ties to even where
this model rounds them up; no verified property depends on tie direction). -/
def pyRound (x : Rat) (prec : Nat) : Rat :=
  ((round (x * (10 : Rat) ^ prec) : Int) : Rat) / (10 : Rat) ^ prec

/-- Model of `sklearn.metrics.accuracy_score`: the fraction of positions where
the true and predicted labels agree. -/
def accuracy_score (y_true y_pred : List Rat) : Rat :=
  (((y_true.zip y_pred).countP (fun p => decide (p.1 = p.2)) : Nat) : Rat) /
    ((y_true.length : Nat) : Rat)

/-- The label set scikit-learn scores over: the distinct labels occurring in
either sequence. -/
def classLabels (y_true y_pred : List Rat) : List Rat :=
  (y_true ++ y_pred).dedup

/-- True positives of one class. -/
def truePos (y_true y_pred : List Rat) (c : Rat) : Nat :=
  (y_true.zip y_pred).countP (fun p => decide (p.1 = c) && decide (p.2 = c))

/-- Occurrences of one label in a sequence. -/
def labelCount (ys : List Rat) (c : Rat) : Nat :=
  ys.countP (fun x => decide (x = c))

/-- Per-class precision `tp / (tp + fp)`, 0 on an empty denominator
(scikit-learn's zero-division convention; rational division by zero is 0). -/
def precClass (y_true y_pred : List Rat) (c : Rat) : Rat :=
  ((truePos y_true y_pred c : Nat) : Rat) / ((labelCount y_pred c : Nat) : Rat)

/-- Per-class recall `tp / (tp + fn)`, 0 on an empty denominator. -/
def recClass (y_true y_pred : List Rat) (c : Rat) : Rat :=
  ((truePos y_true y_pred c : Nat) : Rat) / ((labelCount y_true c : Nat) : Rat)

/-- Per-class F1, the harmonic mean `2pr / (p + r)`, 0 on an empty denominator. -/
def f1Class (y_true y_pred : List Rat) (c : Rat) : Rat :=
  2 * precClass y_true y_pred c * recClass y_true y_pred c /
    (precClass y_true y_pred c + recClass y_true y_pred c)

/-- Micro-averaged precision: pooled true positives over pooled predictions. -/
def microPrec (y_true y_pred : List Rat) : Rat :=
  let L := classLabels y_true y_pred
  ((L.map (fun c => ((truePos y_true y_pred c : Nat) : Rat))).sum) /
    ((L.map (fun c => ((labelCount y_pred c : Nat) : Rat))).sum)

/-- Micro-averaged recall: pooled true positives over pooled true labels. -/
def microRec (y_true y_pred : List Rat) : Rat :=
  let L := classLabels y_true y_pred
  ((L.map (fun c => ((truePos y_true y_pred c : Nat) : Rat))).sum) /
    ((L.map (fun c => ((labelCount y_true c : Nat) : Rat))).sum)

/-- Model of `sklearn.metrics.precision_score(average=...)` for the two
averaging modes the source uses. -/
def precision_score (y_true y_pred : List Rat) (average : String) : Rat :=
  if average = "macro" then
    let L := classLabels y_true y_pred
    (L.map (precClass y_true y_pred)).sum / ((L.length : Nat) : Rat)
  else
    microPrec y_true y_pred

/-- Model of `sklearn.metrics.recall_score(average=...)`. -/
def recall_score (y_true y_pred : List Rat) (average : String) : Rat :=
  if average = "macro" then
    let L := classLabels y_true y_pred
    (L.map (recClass y_true y_pred)).sum / ((L.length : Nat) : Rat)
  else
    microRec y_true y_pred

/-- Model of `sklearn.metrics.f1_score(average=...)`. -/
def f1_score (y_true y_pred : List Rat) (average : String) : Rat :=
  if average = "macro" then
    let L := classLabels y_true y_pred
    (L.map (f1Class y_true y_pred)).sum / ((L.length : Nat) : Rat)
  else
    2 * microPrec y_true y_pred * microRec y_true y_pred /
      (microPrec y_true y_pred + microRec y_true y_pred)

/-- Translation of `get_metrics(y_true, y_pred, average, prec)` from
`src/utils.py` (source defaults: `average='micro'`, `prec=3`): the dict literal
of the four rounded scores, in its key order. -/
def get_metrics (y_true y_pred : List Rat) (average : String) (prec : Nat) :
    List (String × Rat) :=
  let accuracy := accuracy_score y_true y_pred
  let precisionV := precision_score y_true y_pred average
  let recallV := recall_score y_true y_pred average
  let f1 := f1_score y_true y_pred average
  [("accuracy", pyRound accuracy prec),
   ("precision", pyRound precisionV prec),
   ("recall", pyRound recallV prec),
   ("f1", pyRound f1 prec)]

/-- The two baseline classifiers `run_scikit_experiment` can construct. -/
inductive ScikitClf where
  | gaussianNB : ScikitClf
  | decisionTree : Nat → ScikitClf
deriving DecidableEq

/-- Uncaught Python exceptions surfaced by the modelled code paths. -/
inductive PyError where
  | nameError : String → PyError
deriving DecidableEq

/-- The `if/elif/else` classifier selection of `run_scikit_experiment`: the two
recognised labels construct a classifier (`DecisionTreeClassifier` with its
fixed `random_state=42`); any other label leaves `clf_scikit` unbound. -/
def selectScikitClf (clf_label : String) : Option ScikitClf :=
  if clf_label = "GaussianNB" then some .gaussianNB
  else if clf_label = "DecisionTree" then some (.decisionTree 42)
  else none

/-- Column concatenation `pd.concat([X, y], axis=1)`. -/
def concatColumns (X : Table) (y : PdValue) : Table :=
  match y with
  | .frame t => ⟨X.cols ++ t.cols, List.zipWith (fun r s => r ++ s) X.rows t.rows⟩
  | .series n vs => ⟨X.cols ++ [n], List.zipWith (fun r v => r ++ [v]) X.rows vs⟩

/-- Translation of `run_scikit_experiment(data, clf_label)` from `src/utils.py`.
The external fit-and-predict behaviour of the scikit-learn classifiers is an
injected function `clfPredict`.  The result pairs the lines printed to stdout
with either the metrics dict or the uncaught exception: when the label matches
neither branch the source prints `'That model is not available!'` and then
falls through to `clf_scikit.fit(...)` with `clf_scikit` never assigned, which
raises `NameError` — no configuration error is raised. -/
def run_scikit_experiment (clfPredict : ScikitClf → Table → PdValue → Table → List Rat)
    (data : Split) (clf_label : String) :
    List String × Except PyError (List (String × Rat)) :=
  let X_train := data.trainX
  let y_train := data.trainY
  let X_test := data.testX
  let y_test := data.testY
  let _train_ds := concatColumns X_train y_train
  let _test_ds := concatColumns X_test y_test
  match selectScikitClf clf_label with
  | some clf_scikit =>
    let y_pred := clfPredict clf_scikit X_train y_train X_test
    ([], .ok (get_metrics (pdVals y_test) y_pred "macro" 3))
  | none =>
    (["That model is not available!"], .error (.nameError "clf_scikit"))

/-! Heap lemmas: allocation and in-place writes only touch the intended cell. -/

theorem heap_get_alloc_self (h : Heap) (v : PdValue) :
    (h.alloc v).1.get h.next = some v := by
  simp [Heap.alloc, Heap.get, List.find?]

theorem heap_get_alloc_ne (h : Heap) (v : PdValue) (r : Nat) (hr : r ≠ h.next) :
    (h.alloc v).1.get r = h.get r := by
  simp only [Heap.alloc, Heap.get, List.find?]
  have : (h.next == r) = false := by simp [Ne.symm hr]
  simp [this]

theorem find?_key_map_write (l : List (Nat × PdValue)) (r s : Nat) (v : PdValue)
    (hne : s ≠ r) :
    (l.map (fun q => if q.1 == r then (r, v) else q)).find? (fun q => q.1 == s) =
      l.find? (fun q => q.1 == s) := by
  induction l with
  | nil => rfl
  | cons q l ih =>
    rw [List.map_cons]
    by_cases hq : q.1 = r
    · have h1 : ((if q.1 == r then (r, v) else q) : Nat × PdValue) = (r, v) := by
        simp [hq]
      rw [h1, List.find?_cons_of_neg _ (by simp [Ne.symm hne]),
        List.find?_cons_of_neg _ (by simp [hq, Ne.symm hne])]
      exact ih
    · have h1 : ((if q.1 == r then (r, v) else q) : Nat × PdValue) = q := by
        simp [hq]
      rw [h1]
      by_cases hs : q.1 = s
      · rw [List.find?_cons_of_pos _ (by simp [hs]), List.find?_cons_of_pos _ (by simp [hs])]
      · rw [List.find?_cons_of_neg _ (by simp [hs]), List.find?_cons_of_neg _ (by simp [hs])]
        exact ih

theorem heap_get_write_ne (h : Heap) (r s : Nat) (v : PdValue) (hne : s ≠ r) :
    (h.write r v).get s = h.get s := by
  simp only [Heap.write, Heap.get]
  rw [find?_key_map_write _ _ _ _ hne]

theorem heap_getV_alloc_self (h : Heap) (v : PdValue) :
    (h.alloc v).1.getV h.next = v := by
  simp [Heap.getV, heap_get_alloc_self]

theorem heap_getV_alloc_ne (h : Heap) (v : PdValue) (r : Nat) (hr : r ≠ h.next) :
    (h.alloc v).1.getV r = h.getV r := by
  simp [Heap.getV, heap_get_alloc_ne h v r hr]

theorem heap_getV_write_ne (h : Heap) (r s : Nat) (v : PdValue) (hne : s ≠ r) :
    (h.write r v).getV s = h.getV s := by
  simp [Heap.getV, heap_get_write_ne h r s v hne]

theorem heap_get_cons_ne (next : Nat) (mem : List (Nat × PdValue)) (v : PdValue)
    (r k : Nat) (hk : k ≠ r) :
    Heap.get ⟨next, (k, v) :: mem⟩ r = Heap.get ⟨next, mem⟩ r := by
  simp only [Heap.get]
  rw [List.find?_cons_of_neg _ (by simp [hk])]

/-- Every pre-existing heap cell survives `discretize_data` untouched: the body
only allocates fresh cells and writes through references it has just allocated. -/
theorem discretize_data_preserves_cells (h : Heap) (data : SplitRef)
    (continuous_attrs : List String) (n_bins : Nat) (y_on : String)
    (r : Nat) (hr : r < h.next) :
    (discretize_data h data continuous_attrs n_bins y_on).1.get r = h.get r := by
  simp only [discretize_data, Heap.alloc]
  split_ifs
  · rw [heap_get_write_ne _ _ _ _ (by omega), heap_get_write_ne _ _ _ _ (by omega),
      heap_get_cons_ne _ _ _ _ _ (by omega), heap_get_cons_ne _ _ _ _ _ (by omega),
      heap_get_cons_ne _ _ _ _ _ (by omega), heap_get_cons_ne _ _ _ _ _ (by omega)]
    rfl
  · rw [heap_get_cons_ne _ _ _ _ _ (by omega), heap_get_cons_ne _ _ _ _ _ (by omega),
      heap_get_cons_ne _ _ _ _ _ (by omega), heap_get_cons_ne _ _ _ _ _ (by omega),
      heap_get_cons_ne _ _ _ _ _ (by omega), heap_get_cons_ne _ _ _ _ _ (by omega),
      heap_get_cons_ne _ _ _ _ _ (by omega), heap_get_cons_ne _ _ _ _ _ (by omega)]
    rfl
  · rw [heap_get_cons_ne _ _ _ _ _ (by omega), heap_get_cons_ne _ _ _ _ _ (by omega),
      heap_get_cons_ne _ _ _ _ _ (by omega), heap_get_cons_ne _ _ _ _ _ (by omega)]
    rfl

theorem heap_getV_cons_self (next : Nat) (mem : List (Nat × PdValue)) (v : PdValue)
    (k : Nat) :
    Heap.getV ⟨next, (k, v) :: mem⟩ k = v := by
  simp only [Heap.getV, Heap.get]
  rw [List.find?_cons_of_pos _ (by simp)]
  rfl

theorem heap_getV_cons_ne (next : Nat) (mem : List (Nat × PdValue)) (v : PdValue)
    (r k : Nat) (hk : k ≠ r) :
    Heap.getV ⟨next, (k, v) :: mem⟩ r = Heap.getV ⟨next, mem⟩ r := by
  simp only [Heap.getV]
  rw [heap_get_cons_ne _ _ _ _ _ hk]

/-- C6: `split_data` is deterministic — with the seed pinned to 42 its result
does not depend on the ambient numpy generator state, so two calls with the
same data and target column produce identical train and test partitions. -/
theorem split_data_deterministic (ambient1 ambient2 : Nat) (data : Table)
    (y_on : String) :
    split_data ambient1 data y_on = split_data ambient2 data y_on := rfl

/-- C1 (code evaluated at the failing input): `run_scikit_experiment` with the
unrecognised label `'Foo'` does not raise a configuration error — it prints
`'That model is not available!'` and then crashes with a `NameError` on the
never-assigned `clf_scikit` when reaching the fit call. -/
theorem run_scikit_experiment_unknown_label
    (clfPredict : ScikitClf → Table → PdValue → Table → List Rat) (data : Split) :
    run_scikit_experiment clfPredict data "Foo" =
      (["That model is not available!"], Except.error (PyError.nameError "clf_scikit")) := rfl

/-- C10: `split_data` returns each target as a one-column frame; `'class'`-mode
discretisation preserves the target slots, but `'n_children'`-mode returns both
targets as flat Series extracted from the combined table, so the returned split
does not have the same target shape as the split it was given. -/
theorem discretize_changes_target_shape :
    (∀ ambient data y_on, ∃ t1 t2,
      (split_data ambient data y_on).trainY = PdValue.frame t1 ∧ t1.cols = [y_on] ∧
      (split_data ambient data y_on).testY = PdValue.frame t2 ∧ t2.cols = [y_on]) ∧
    (∀ s continuous_attrs n_bins,
      (discretizeSplit s continuous_attrs n_bins "class").trainY = s.trainY ∧
      (discretizeSplit s continuous_attrs n_bins "class").testY = s.testY) ∧
    (∀ s continuous_attrs n_bins, ∃ vs1 vs2,
      (discretizeSplit s continuous_attrs n_bins "n_children").trainY =
        PdValue.series "n_children" vs1 ∧
      (discretizeSplit s continuous_attrs n_bins "n_children").testY =
        PdValue.series "n_children" vs2) ∧
    (∀ ambient data continuous_attrs n_bins,
      (discretizeSplit (split_data ambient data "n_children") continuous_attrs n_bins
          "n_children").trainY ≠ (split_data ambient data "n_children").trainY ∧
      (discretizeSplit (split_data ambient data "n_children") continuous_attrs n_bins
          "n_children").testY ≠ (split_data ambient data "n_children").testY) := by
  refine ⟨fun a d y => ⟨_, _, rfl, rfl, rfl, rfl⟩,
    fun s c n => ⟨rfl, rfl⟩,
    fun s c n => ⟨_, _, rfl, rfl⟩,
    fun a d c n => ⟨fun h => ?_, fun h => ?_⟩⟩ <;>
    exact PdValue.noConfusion h

/-- C2: with a target-column name other than `'class'` and `'n_children'`,
`discretize_data` falls through both policy branches: the returned split is a
fresh copy (all four slot references are new) whose contents equal the input
split's contents, with no column transformed. -/
theorem discretize_data_fallthrough (h : Heap) (data : SplitRef)
    (continuous_attrs : List String) (n_bins : Nat) (y_on : String)
    (hc : y_on ≠ "class") (hn : y_on ≠ "n_children")
    (h1 : data.trainX < h.next) (h2 : data.trainY < h.next)
    (h3 : data.testX < h.next) (h4 : data.testY < h.next) :
    (discretize_data h data continuous_attrs n_bins y_on).1.getV
        (discretize_data h data continuous_attrs n_bins y_on).2.trainX =
      h.getV data.trainX ∧
    (discretize_data h data continuous_attrs n_bins y_on).1.getV
        (discretize_data h data continuous_attrs n_bins y_on).2.trainY =
      h.getV data.trainY ∧
    (discretize_data h data continuous_attrs n_bins y_on).1.getV
        (discretize_data h data continuous_attrs n_bins y_on).2.testX =
      h.getV data.testX ∧
    (discretize_data h data continuous_attrs n_bins y_on).1.getV
        (discretize_data h data continuous_attrs n_bins y_on).2.testY =
      h.getV data.testY ∧
    (discretize_data h data continuous_attrs n_bins y_on).2.trainX ≠ data.trainX ∧
    (discretize_data h data continuous_attrs n_bins y_on).2.trainY ≠ data.trainY ∧
    (discretize_data h data continuous_attrs n_bins y_on).2.testX ≠ data.testX ∧
    (discretize_data h data continuous_attrs n_bins y_on).2.testY ≠ data.testY := by
  simp only [discretize_data, Heap.alloc, if_neg hc, if_neg hn]
  refine ⟨?_, ?_, ?_, ?_, by omega, by omega, by omega, by omega⟩
  · rw [heap_getV_cons_ne _ _ _ _ _ (by omega), heap_getV_cons_ne _ _ _ _ _ (by omega),
      heap_getV_cons_ne _ _ _ _ _ (by omega), heap_getV_cons_self]
  · rw [heap_getV_cons_ne _ _ _ _ _ (by omega), heap_getV_cons_ne _ _ _ _ _ (by omega),
      heap_getV_cons_self]
  · rw [heap_getV_cons_ne _ _ _ _ _ (by omega), heap_getV_cons_self]
  · rw [heap_getV_cons_self]

/-- Witness for C2 at a concrete heap, split and unrecognised target name. -/
theorem discretize_data_fallthrough_witness :
    (discretize_data ⟨4, [(0, PdValue.frame ⟨["a"], [[1], [2]]⟩),
        (1, PdValue.frame ⟨["class"], [[0], [1]]⟩),
        (2, PdValue.frame ⟨["a"], [[3]]⟩),
        (3, PdValue.frame ⟨["class"], [[1]]⟩)]⟩
      ⟨0, 1, 2, 3⟩ ["a"] 10 "bogus").1.getV
        (discretize_data ⟨4, [(0, PdValue.frame ⟨["a"], [[1], [2]]⟩),
            (1, PdValue.frame ⟨["class"], [[0], [1]]⟩),
            (2, PdValue.frame ⟨["a"], [[3]]⟩),
            (3, PdValue.frame ⟨["class"], [[1]]⟩)]⟩
          ⟨0, 1, 2, 3⟩ ["a"] 10 "bogus").2.trainX =
      Heap.getV ⟨4, [(0, PdValue.frame ⟨["a"], [[1], [2]]⟩),
        (1, PdValue.frame ⟨["class"], [[0], [1]]⟩),
        (2, PdValue.frame ⟨["a"], [[3]]⟩),
        (3, PdValue.frame ⟨["class"], [[1]]⟩)]⟩ 0 ∧
    (discretize_data ⟨4, [(0, PdValue.frame ⟨["a"], [[1], [2]]⟩),
        (1, PdValue.frame ⟨["class"], [[0], [1]]⟩),
        (2, PdValue.frame ⟨["a"], [[3]]⟩),
        (3, PdValue.frame ⟨["class"], [[1]]⟩)]⟩
      ⟨0, 1, 2, 3⟩ ["a"] 10 "bogus").2.trainX ≠ 0 := by
  have h := discretize_data_fallthrough
    ⟨4, [(0, PdValue.frame ⟨["a"], [[1], [2]]⟩),
      (1, PdValue.frame ⟨["class"], [[0], [1]]⟩),
      (2, PdValue.frame ⟨["a"], [[3]]⟩),
      (3, PdValue.frame ⟨["class"], [[1]]⟩)]⟩
    ⟨0, 1, 2, 3⟩ ["a"] 10 "bogus"
    (by decide) (by decide) (by decide) (by decide) (by decide) (by decide)
  exact ⟨h.1, h.2.2.2.2.1⟩

/-- C3: `discretize_data` never mutates the caller's split: after the call the
four input slot objects (train/test features and targets) are unchanged in the
heap; all transformation happens on the deep copy. -/
theorem discretize_data_no_mutation (h : Heap) (data : SplitRef)
    (continuous_attrs : List String) (n_bins : Nat) (y_on : String)
    (h1 : data.trainX < h.next) (h2 : data.trainY < h.next)
    (h3 : data.testX < h.next) (h4 : data.testY < h.next) :
    (discretize_data h data continuous_attrs n_bins y_on).1.get data.trainX =
      h.get data.trainX ∧
    (discretize_data h data continuous_attrs n_bins y_on).1.get data.trainY =
      h.get data.trainY ∧
    (discretize_data h data continuous_attrs n_bins y_on).1.get data.testX =
      h.get data.testX ∧
    (discretize_data h data continuous_attrs n_bins y_on).1.get data.testY =
      h.get data.testY :=
  ⟨discretize_data_preserves_cells h data continuous_attrs n_bins y_on _ h1,
   discretize_data_preserves_cells h data continuous_attrs n_bins y_on _ h2,
   discretize_data_preserves_cells h data continuous_attrs n_bins y_on _ h3,
   discretize_data_preserves_cells h data continuous_attrs n_bins y_on _ h4⟩

/-- Witness for C3 at a concrete heap and split, in the `'class'` mode that
actually transforms columns. -/
theorem discretize_data_no_mutation_witness :
    (discretize_data ⟨4, [(0, PdValue.frame ⟨["a"], [[1], [2]]⟩),
        (1, PdValue.frame ⟨["class"], [[0], [1]]⟩),
        (2, PdValue.frame ⟨["a"], [[3]]⟩),
        (3, PdValue.frame ⟨["class"], [[1]]⟩)]⟩
      ⟨0, 1, 2, 3⟩ ["a"] 10 "class").1.get 0 =
      Heap.get ⟨4, [(0, PdValue.frame ⟨["a"], [[1], [2]]⟩),
        (1, PdValue.frame ⟨["class"], [[0], [1]]⟩),
        (2, PdValue.frame ⟨["a"], [[3]]⟩),
        (3, PdValue.frame ⟨["class"], [[1]]⟩)]⟩ 0 ∧
    (discretize_data ⟨4, [(0, PdValue.frame ⟨["a"], [[1], [2]]⟩),
        (1, PdValue.frame ⟨["class"], [[0], [1]]⟩),
        (2, PdValue.frame ⟨["a"], [[3]]⟩),
        (3, PdValue.frame ⟨["class"], [[1]]⟩)]⟩
      ⟨0, 1, 2, 3⟩ ["a"] 10 "class").1.get 1 =
      Heap.get ⟨4, [(0, PdValue.frame ⟨["a"], [[1], [2]]⟩),
        (1, PdValue.frame ⟨["class"], [[0], [1]]⟩),
        (2, PdValue.frame ⟨["a"], [[3]]⟩),
        (3, PdValue.frame ⟨["class"], [[1]]⟩)]⟩ 1 := by
  have h := discretize_data_no_mutation
    ⟨4, [(0, PdValue.frame ⟨["a"], [[1], [2]]⟩),
      (1, PdValue.frame ⟨["class"], [[0], [1]]⟩),
      (2, PdValue.frame ⟨["a"], [[3]]⟩),
      (3, PdValue.frame ⟨["class"], [[1]]⟩)]⟩
    ⟨0, 1, 2, 3⟩ ["a"] 10 "class"
    (by decide) (by decide) (by decide) (by decide)
  exact ⟨h.1, h.2.1⟩

/-- C4: the discretiser's fitted parameters come from the training partition
only — for two splits with identical training data, the fitted bin edges and
(therefore) the transformed training features and target coincide, whatever
the test data. -/
theorem discretize_fit_train_only (s1 s2 : Split) (continuous_attrs : List String)
    (n_bins : Nat) (y_on : String)
    (hX : s1.trainX = s2.trainX) (hY : s1.trainY = s2.trainY) :
    kbinsFit (selectColumns s1.trainX continuous_attrs) n_bins =
      kbinsFit (selectColumns s2.trainX continuous_attrs) n_bins ∧
    (discretizeSplit s1 continuous_attrs n_bins y_on).trainX =
      (discretizeSplit s2 continuous_attrs n_bins y_on).trainX ∧
    (discretizeSplit s1 continuous_attrs n_bins y_on).trainY =
      (discretizeSplit s2 continuous_attrs n_bins y_on).trainY := by
  refine ⟨by rw [hX], ?_, ?_⟩ <;>
  · simp only [discretizeSplit]
    split_ifs <;> simp [hX, hY]

/-- Witness for C4: equal training data, different test data. -/
theorem discretize_fit_train_only_witness :
    kbinsFit (selectColumns (Table.mk ["a"] [[1], [2]]) ["a"]) 3 =
      kbinsFit (selectColumns (Table.mk ["a"] [[1], [2]]) ["a"]) 3 ∧
    (discretizeSplit ⟨⟨["a"], [[1], [2]]⟩, PdValue.frame ⟨["class"], [[0], [1]]⟩,
        ⟨["a"], [[3]]⟩, PdValue.frame ⟨["class"], [[1]]⟩⟩ ["a"] 3 "class").trainX =
      (discretizeSplit ⟨⟨["a"], [[1], [2]]⟩, PdValue.frame ⟨["class"], [[0], [1]]⟩,
        ⟨["a"], [[7], [9]]⟩, PdValue.frame ⟨["class"], [[0], [0]]⟩⟩ ["a"] 3 "class").trainX ∧
    (discretizeSplit ⟨⟨["a"], [[1], [2]]⟩, PdValue.frame ⟨["class"], [[0], [1]]⟩,
        ⟨["a"], [[3]]⟩, PdValue.frame ⟨["class"], [[1]]⟩⟩ ["a"] 3 "class").trainY =
      (discretizeSplit ⟨⟨["a"], [[1], [2]]⟩, PdValue.frame ⟨["class"], [[0], [1]]⟩,
        ⟨["a"], [[7], [9]]⟩, PdValue.frame ⟨["class"], [[0], [0]]⟩⟩ ["a"] 3 "class").trainY :=
  discretize_fit_train_only
    ⟨⟨["a"], [[1], [2]]⟩, PdValue.frame ⟨["class"], [[0], [1]]⟩,
      ⟨["a"], [[3]]⟩, PdValue.frame ⟨["class"], [[1]]⟩⟩
    ⟨⟨["a"], [[1], [2]]⟩, PdValue.frame ⟨["class"], [[0], [1]]⟩,
      ⟨["a"], [[7], [9]]⟩, PdValue.frame ⟨["class"], [[0], [0]]⟩⟩
    ["a"] 3 "class" rfl rfl

theorem map_getD_range {α : Type} (l : List α) (d : α) :
    (List.range l.length).map (fun i => l.getD i d) = l := by
  induction l with
  | nil => rfl
  | cons a t ih =>
    rw [List.length_cons, List.range_succ_eq_map, List.map_cons, List.map_map]
    have hc : ((fun i => (a :: t).getD i d) ∘ Nat.succ) = fun i => t.getD i d := by
      funext i
      rfl
    rw [hc, ih]
    rfl

/-- Cutting any permutation of the row indices into a tail segment and an
initial segment and reading the rows back yields a permutation of the rows. -/
theorem selectRows_split_perm (t : Table) (k : Nat) (p : List Nat)
    (hp : p.Perm (List.range t.rows.length)) :
    ((selectRows t (p.drop k)).rows ++ (selectRows t (p.take k)).rows).Perm t.rows := by
  simp only [selectRows]
  rw [← List.map_append]
  have h1 : (p.drop k ++ p.take k).Perm (List.range t.rows.length) :=
    (List.perm_append_comm).trans (by rw [List.take_append_drop]; exact hp)
  have h2 := h1.map (fun i => t.rows.getD i [])
  rw [map_getD_range] at h2
  exact h2

theorem permuteIndices_length (seed n : Nat) : (permuteIndices seed n).length = n := by
  unfold permuteIndices
  rw [(List.mergeSort_perm _ _).length_eq, List.length_range]

/-- C7: the split returned by `split_data` removes the target column from both
feature tables, cuts a duplicate-free index permutation (so the partitions are
row-disjoint), together covers the input rows (features and targets alike, as
multisets), and sizes the partitions by `test_size=0.2`: `ceil(n/5)` test rows
and the remaining `n - ceil(n/5)` training rows. -/
theorem split_data_partition_invariants (ambient : Nat) (data : Table) (y_on : String) :
    y_on ∉ (split_data ambient data y_on).trainX.cols ∧
    y_on ∉ (split_data ambient data y_on).testX.cols ∧
    (List.take ((data.rows.length + 4) / 5) (permuteIndices 42 data.rows.length)).Disjoint
      (List.drop ((data.rows.length + 4) / 5) (permuteIndices 42 data.rows.length)) ∧
    ((split_data ambient data y_on).trainX.rows ++
      (split_data ambient data y_on).testX.rows).Perm (dropColumn data y_on).rows ∧
    ((asTable (split_data ambient data y_on).trainY).rows ++
      (asTable (split_data ambient data y_on).testY).rows).Perm
      (selectColumns data [y_on]).rows ∧
    (split_data ambient data y_on).testX.rows.length = (data.rows.length + 4) / 5 ∧
    (split_data ambient data y_on).trainX.rows.length =
      data.rows.length - (data.rows.length + 4) / 5 := by
  have hXlen : (dropColumn data y_on).rows.length = data.rows.length := by
    simp [dropColumn]
  have hYlen : (selectColumns data [y_on]).rows.length = data.rows.length := by
    simp [selectColumns]
  have hnodup : (permuteIndices 42 data.rows.length).Nodup :=
    ((List.mergeSort_perm _ _).symm).nodup (List.nodup_range _)
  refine ⟨?_, ?_, ?_, ?_, ?_, ?_, ?_⟩
  · simp [split_data, train_test_split, selectRows, dropColumn, List.mem_filter]
  · simp [split_data, train_test_split, selectRows, dropColumn, List.mem_filter]
  · exact List.disjoint_take_drop hnodup (le_refl _)
  · exact selectRows_split_perm (dropColumn data y_on) _ _ (List.mergeSort_perm _ _)
  · refine selectRows_split_perm (selectColumns data [y_on]) _ _ ?_
    have h5 : (dropColumn data y_on).rows.length = (selectColumns data [y_on]).rows.length := by
      simp [dropColumn, selectColumns]
    rw [← h5]
    exact List.mergeSort_perm _ _
  · simp only [split_data, train_test_split, selectRows, List.length_map,
      List.length_take, permuteIndices_length, hXlen]
    omega
  · simp only [split_data, train_test_split, selectRows, List.length_map,
      List.length_drop, permuteIndices_length, hXlen]

/-- C9: on a present, nonempty file whose rows all have exactly 10 fields,
`load_data` returns the table with the ten fixed CMC column names assigned
positionally in order; an absent file propagates the parser's error, and a
present file with a different column count fails with the length-mismatch
error raised by the column assignment. -/
theorem load_data_schema (files : List (String × List (List Rat)))
    (data_dir data_file : String) :
    (∀ rows, read_csv files (data_dir ++ "/" ++ data_file) = .ok rows → rows ≠ [] →
      (∀ r ∈ rows, r.length = 10) →
      load_data files data_dir data_file = .ok ⟨cmcColumns, rows⟩) ∧
    (read_csv files (data_dir ++ "/" ++ data_file) = .error "FileNotFoundError" →
      load_data files data_dir data_file = .error "FileNotFoundError") ∧
    (∀ rows, read_csv files (data_dir ++ "/" ++ data_file) = .ok rows →
      (rows.headD []).length ≠ 10 →
      load_data files data_dir data_file = .error "ValueError: Length mismatch") := by
  refine ⟨?_, ?_, ?_⟩
  · intro rows hr hne hlen
    simp only [load_data, hr]
    have h10 : (rows.headD []).length = 10 := by
      cases rows with
      | nil => exact absurd rfl hne
      | cons r t => exact hlen r (List.mem_cons_self r t)
    rw [if_pos (by rw [h10]; rfl)]
  · intro hr
    simp only [load_data, hr]
  · intro rows hr hlen
    simp only [load_data, hr]
    rw [if_neg (by rw [show cmcColumns.length = 10 from rfl]; exact fun hcontra => hlen hcontra.symm)]

/-- Witness for C9: one store holding a good 10-column file, exercised for the
success case, the missing-file case, and the wrong-width case. -/
theorem load_data_schema_witness :
    load_data [("../data/cmc.data", [[24, 2, 3, 3, 1, 1, 2, 3, 0, 1], [45, 1, 3, 10, 1, 1, 3, 4, 0, 1]]),
        ("../data/bad.data", [[1, 2, 3]])] "../data" "cmc.data" =
      .ok ⟨cmcColumns, [[24, 2, 3, 3, 1, 1, 2, 3, 0, 1], [45, 1, 3, 10, 1, 1, 3, 4, 0, 1]]⟩ ∧
    load_data [("../data/cmc.data", [[24, 2, 3, 3, 1, 1, 2, 3, 0, 1], [45, 1, 3, 10, 1, 1, 3, 4, 0, 1]]),
        ("../data/bad.data", [[1, 2, 3]])] "../data" "missing.data" =
      .error "FileNotFoundError" ∧
    load_data [("../data/cmc.data", [[24, 2, 3, 3, 1, 1, 2, 3, 0, 1], [45, 1, 3, 10, 1, 1, 3, 4, 0, 1]]),
        ("../data/bad.data", [[1, 2, 3]])] "../data" "bad.data" =
      .error "ValueError: Length mismatch" := by
  refine ⟨?_, ?_, ?_⟩
  · exact (load_data_schema [("../data/cmc.data", [[24, 2, 3, 3, 1, 1, 2, 3, 0, 1], [45, 1, 3, 10, 1, 1, 3, 4, 0, 1]]),
        ("../data/bad.data", [[1, 2, 3]])] "../data" "cmc.data").1
      [[24, 2, 3, 3, 1, 1, 2, 3, 0, 1], [45, 1, 3, 10, 1, 1, 3, 4, 0, 1]]
      rfl (by decide) (by decide)
  · exact (load_data_schema [("../data/cmc.data", [[24, 2, 3, 3, 1, 1, 2, 3, 0, 1], [45, 1, 3, 10, 1, 1, 3, 4, 0, 1]]),
        ("../data/bad.data", [[1, 2, 3]])] "../data" "missing.data").2.1 rfl
  · exact (load_data_schema [("../data/cmc.data", [[24, 2, 3, 3, 1, 1, 2, 3, 0, 1], [45, 1, 3, 10, 1, 1, 3, 4, 0, 1]]),
        ("../data/bad.data", [[1, 2, 3]])] "../data" "bad.data").2.2
      [[1, 2, 3]] rfl (by decide)

theorem colIdx_lt_length (cols : List String) (c : String) (j : Nat)
    (h : colIdx cols c = some j) : j < cols.length := by
  induction cols generalizing j with
  | nil => simp [colIdx] at h
  | cons c' rest ih =>
    simp only [colIdx] at h
    by_cases hc : c' = c
    · rw [if_pos hc] at h
      cases h
      simp
    · rw [if_neg hc, Option.map_eq_some'] at h
      obtain ⟨k, hk, hj⟩ := h
      have := ih k hk
      simp only [List.length_cons]
      omega

theorem colIdx_getD (cols : List String) (c : String) (j : Nat)
    (h : colIdx cols c = some j) : cols.getD j "" = c := by
  induction cols generalizing j with
  | nil => simp [colIdx] at h
  | cons c' rest ih =>
    simp only [colIdx] at h
    by_cases hc : c' = c
    · rw [if_pos hc] at h
      cases h
      exact hc
    · rw [if_neg hc, Option.map_eq_some'] at h
      obtain ⟨k, hk, hj⟩ := h
      subst hj
      exact ih k hk

theorem colIdx_eq_none (cols : List String) (c : String) (h : c ∉ cols) :
    colIdx cols c = none := by
  induction cols with
  | nil => rfl
  | cons c' rest ih =>
    have h1 : ¬c' = c := fun he => h (by rw [← he]; exact List.mem_cons_self c' rest)
    have h2 : c ∉ rest := fun hm => h (List.mem_cons_of_mem _ hm)
    simp only [colIdx, if_neg h1, ih h2]
    rfl

theorem colIdx_some_of_mem (cols : List String) (c : String) (h : c ∈ cols) :
    ∃ j, colIdx cols c = some j := by
  induction cols with
  | nil => simp at h
  | cons c' rest ih =>
    simp only [colIdx]
    by_cases hc : c' = c
    · exact ⟨0, by rw [if_pos hc]⟩
    · have hmem : c ∈ rest := by
        rcases List.mem_cons.1 h with h1 | h1
        · exact absurd h1.symm hc
        · exact h1
      obtain ⟨j, hj⟩ := ih hmem
      exact ⟨j + 1, by rw [if_neg hc, hj]; rfl⟩

theorem colIdx_append_self (cols : List String) (c : String)
    (h : colIdx cols c = none) : colIdx (cols ++ [c]) c = some cols.length := by
  induction cols with
  | nil => simp [colIdx]
  | cons c' rest ih =>
    rw [List.cons_append]
    simp only [colIdx] at h ⊢
    by_cases hc : c' = c
    · rw [if_pos hc] at h
      cases h
    · rw [if_neg hc] at h ⊢
      have hnone : colIdx rest c = none := by
        cases he : colIdx rest c with
        | none => rfl
        | some k =>
          rw [he] at h
          cases h
      rw [ih hnone]
      simp

theorem colIdx_append_ne (cols : List String) (c c' : String) (hne : c' ≠ c) :
    colIdx (cols ++ [c]) c' = colIdx cols c' := by
  induction cols with
  | nil => simp [colIdx, Ne.symm hne]
  | cons c0 rest ih =>
    rw [List.cons_append]
    simp only [colIdx]
    by_cases hc : c0 = c'
    · rw [if_pos hc, if_pos hc]
    · rw [if_neg hc, if_neg hc, ih]

theorem set_getD_self (r : List Rat) (j : Nat) (v : Rat) (hj : j < r.length) :
    (r.set j v).getD j 0 = v := by
  induction r generalizing j with
  | nil => simp at hj
  | cons a t ih =>
    cases j with
    | zero => rfl
    | succ k => exact ih k (by simp at hj; omega)

theorem set_getD_ne (r : List Rat) (j i : Nat) (v : Rat) (hne : j ≠ i) :
    (r.set j v).getD i 0 = r.getD i 0 := by
  induction r generalizing j i with
  | nil => rfl
  | cons a t ih =>
    cases j with
    | zero =>
      cases i with
      | zero => exact absurd rfl hne
      | succ k => rfl
    | succ m =>
      cases i with
      | zero => rfl
      | succ k => exact ih m k (by omega)

theorem append_getD_lt (r : List Rat) (v : Rat) (i : Nat) (hi : i < r.length) :
    (r ++ [v]).getD i 0 = r.getD i 0 := by
  induction r generalizing i with
  | nil => simp at hi
  | cons a t ih =>
    cases i with
    | zero => rfl
    | succ k => exact ih k (by simp at hi; omega)

theorem append_getD_len (r : List Rat) (v : Rat) : (r ++ [v]).getD r.length 0 = v := by
  induction r with
  | nil => rfl
  | cons a t ih => exact ih

theorem map_getD_lt {α β : Type} (l : List α) (f : α → β) (i : Nat) (d : β) (d' : α)
    (hi : i < l.length) : (l.map f).getD i d = f (l.getD i d') := by
  induction l generalizing i with
  | nil => simp at hi
  | cons a t ih =>
    cases i with
    | zero => rfl
    | succ k => exact ih k (by simp at hi; omega)

theorem mem_zipWith_pair {α β γ : Type} (f : α → β → γ) (as : List α) (bs : List β)
    (x : γ) (hx : x ∈ List.zipWith f as bs) : ∃ a ∈ as, ∃ b ∈ bs, x = f a b := by
  induction as generalizing bs with
  | nil => simp at hx
  | cons a as ih =>
    cases bs with
    | nil => simp at hx
    | cons b bs =>
      rcases List.mem_cons.1 hx with h | h
      · exact ⟨a, List.mem_cons_self _ _, b, List.mem_cons_self _ _, h⟩
      · obtain ⟨a', ha', b', hb', he⟩ := ih bs h
        exact ⟨a', List.mem_cons_of_mem _ ha', b', List.mem_cons_of_mem _ hb', he⟩

theorem zipWith_set_map_getD (rows : List (List Rat)) (vs : List Rat) (j : Nat)
    (hlen : rows.length = vs.length) (hj : ∀ r ∈ rows, j < r.length) :
    (List.zipWith (fun r v => r.set j v) rows vs).map (fun r => r.getD j 0) = vs := by
  induction rows generalizing vs with
  | nil =>
    cases vs with
    | nil => rfl
    | cons v t => simp at hlen
  | cons r rows ih =>
    cases vs with
    | nil => simp at hlen
    | cons v t =>
      simp only [List.zipWith_cons_cons, List.map_cons]
      rw [set_getD_self r j v (hj r (List.mem_cons_self _ _)),
        ih t (by simpa using hlen) (fun r' hr' => hj r' (List.mem_cons_of_mem _ hr'))]

theorem zipWith_set_map_getD_ne (rows : List (List Rat)) (vs : List Rat) (j i : Nat)
    (hlen : rows.length = vs.length) (hne : j ≠ i) :
    (List.zipWith (fun r v => r.set j v) rows vs).map (fun r => r.getD i 0) =
      rows.map (fun r => r.getD i 0) := by
  induction rows generalizing vs with
  | nil => rfl
  | cons r rows ih =>
    cases vs with
    | nil => simp at hlen
    | cons v t =>
      simp only [List.zipWith_cons_cons, List.map_cons]
      rw [set_getD_ne r j i v hne, ih t (by simpa using hlen)]

theorem zipWith_app_map_getD (rows : List (List Rat)) (vs : List Rat) (k : Nat)
    (hlen : rows.length = vs.length) (hk : ∀ r ∈ rows, r.length = k) :
    (List.zipWith (fun r v => r ++ [v]) rows vs).map (fun r => r.getD k 0) = vs := by
  induction rows generalizing vs with
  | nil =>
    cases vs with
    | nil => rfl
    | cons v t => simp at hlen
  | cons r rows ih =>
    cases vs with
    | nil => simp at hlen
    | cons v t =>
      simp only [List.zipWith_cons_cons, List.map_cons]
      have hr : (r ++ [v]).getD k 0 = v := by
        rw [← hk r (List.mem_cons_self _ _)]
        exact append_getD_len r v
      rw [hr, ih t (by simpa using hlen) (fun r' hr' => hk r' (List.mem_cons_of_mem _ hr'))]

theorem zipWith_app_map_getD_lt (rows : List (List Rat)) (vs : List Rat) (i : Nat)
    (hlen : rows.length = vs.length) (hi : ∀ r ∈ rows, i < r.length) :
    (List.zipWith (fun r v => r ++ [v]) rows vs).map (fun r => r.getD i 0) =
      rows.map (fun r => r.getD i 0) := by
  induction rows generalizing vs with
  | nil => rfl
  | cons r rows ih =>
    cases vs with
    | nil => simp at hlen
    | cons v t =>
      simp only [List.zipWith_cons_cons, List.map_cons]
      rw [append_getD_lt r v i (hi r (List.mem_cons_self _ _)),
        ih t (by simpa using hlen) (fun r' hr' => hi r' (List.mem_cons_of_mem _ hr'))]

theorem setColVals_WF (t : Table) (c : String) (vs : List Rat)
    (hW : t.WF) : (setColVals t c vs).WF := by
  unfold setColVals
  cases hj : colIdx t.cols c with
  | some j =>
    intro r hr
    obtain ⟨a, ha, b, hb, he⟩ := mem_zipWith_pair _ _ _ _ hr
    subst he
    simp only [List.length_set]
    exact hW a ha
  | none =>
    intro r hr
    obtain ⟨a, ha, b, hb, he⟩ := mem_zipWith_pair _ _ _ _ hr
    subst he
    simp only [List.length_append, List.length_cons, List.length_nil]
    rw [hW a ha]

theorem setColVals_rows_length (t : Table) (c : String) (vs : List Rat)
    (hlen : vs.length = t.rows.length) :
    (setColVals t c vs).rows.length = t.rows.length := by
  unfold setColVals
  cases hj : colIdx t.cols c with
  | some j => simp [List.length_zipWith, hlen]
  | none => simp [List.length_zipWith, hlen]

theorem getColVals_setColVals_self (t : Table) (c : String) (vs : List Rat)
    (hW : t.WF) (hlen : vs.length = t.rows.length) :
    getColVals (setColVals t c vs) c = vs := by
  unfold setColVals
  cases hj : colIdx t.cols c with
  | some j =>
    unfold getColVals
    simp only [hj]
    unfold colAt
    exact zipWith_set_map_getD t.rows vs j hlen.symm
      (fun r hr => by rw [hW r hr]; exact colIdx_lt_length t.cols c j hj)
  | none =>
    unfold getColVals
    simp only [colIdx_append_self t.cols c hj]
    unfold colAt
    exact zipWith_app_map_getD t.rows vs t.cols.length hlen.symm (fun r hr => hW r hr)

theorem getColVals_setColVals_ne (t : Table) (c c' : String) (vs : List Rat)
    (hne : c' ≠ c) (hW : t.WF) (hlen : vs.length = t.rows.length) :
    getColVals (setColVals t c vs) c' = getColVals t c' := by
  unfold setColVals
  cases hj : colIdx t.cols c with
  | some j =>
    unfold getColVals
    cases hi : colIdx t.cols c' with
    | some i =>
      unfold colAt
      have hij : j ≠ i := by
        intro he
        apply hne
        rw [← colIdx_getD t.cols c' i hi, ← colIdx_getD t.cols c j hj, he]
      exact zipWith_set_map_getD_ne t.rows vs j i hlen.symm hij
    | none => rfl
  | none =>
    unfold getColVals
    rw [colIdx_append_ne t.cols c c' hne]
    cases hi : colIdx t.cols c' with
    | some i =>
      unfold colAt
      exact zipWith_app_map_getD_lt t.rows vs i hlen.symm
        (fun r hr => by rw [hW r hr]; exact colIdx_lt_length t.cols c' i hi)
    | none => rfl

theorem setColsList_WF (ps : List (String × List Rat)) (t : Table) (hW : t.WF) :
    (ps.foldl (fun acc p => setColVals acc p.1 p.2) t).WF := by
  induction ps generalizing t with
  | nil => exact hW
  | cons q ps ih => exact ih (setColVals t q.1 q.2) (setColVals_WF t q.1 q.2 hW)

theorem setColsList_rows_length (ps : List (String × List Rat)) (t : Table)
    (hlen : ∀ q ∈ ps, q.2.length = t.rows.length) :
    (ps.foldl (fun acc p => setColVals acc p.1 p.2) t).rows.length = t.rows.length := by
  induction ps generalizing t with
  | nil => rfl
  | cons q ps ih =>
    rw [List.foldl_cons]
    rw [ih (setColVals t q.1 q.2) ?_, setColVals_rows_length t q.1 q.2
      (hlen q (List.mem_cons_self _ _))]
    intro q' hq'
    rw [setColVals_rows_length t q.1 q.2 (hlen q (List.mem_cons_self _ _))]
    exact hlen q' (List.mem_cons_of_mem _ hq')

theorem setColsList_getCol_not_mem (ps : List (String × List Rat)) (t : Table)
    (c : String) (hc : c ∉ ps.map Prod.fst) (hW : t.WF)
    (hlen : ∀ q ∈ ps, q.2.length = t.rows.length) :
    getColVals (ps.foldl (fun acc p => setColVals acc p.1 p.2) t) c = getColVals t c := by
  induction ps generalizing t with
  | nil => rfl
  | cons q ps ih =>
    rw [List.foldl_cons]
    have hc1 : c ≠ q.1 := by
      intro he
      exact hc (by rw [List.map_cons]; rw [he]; exact List.mem_cons_self _ _)
    have hc2 : c ∉ ps.map Prod.fst := by
      intro hm
      exact hc (by rw [List.map_cons]; exact List.mem_cons_of_mem _ hm)
    rw [ih (setColVals t q.1 q.2) hc2 (setColVals_WF t q.1 q.2 hW) ?_,
      getColVals_setColVals_ne t q.1 c q.2 hc1 hW (hlen q (List.mem_cons_self _ _))]
    intro q' hq'
    rw [setColVals_rows_length t q.1 q.2 (hlen q (List.mem_cons_self _ _))]
    exact hlen q' (List.mem_cons_of_mem _ hq')

theorem setColsList_getCol_mem (ps : List (String × List Rat)) (t : Table)
    (c : String) (hnd : (ps.map Prod.fst).Nodup) (hc : c ∈ ps.map Prod.fst) (hW : t.WF)
    (hlen : ∀ q ∈ ps, q.2.length = t.rows.length) :
    ∃ vs, (c, vs) ∈ ps ∧
      getColVals (ps.foldl (fun acc p => setColVals acc p.1 p.2) t) c = vs := by
  induction ps generalizing t with
  | nil => simp at hc
  | cons q ps ih =>
    rw [List.foldl_cons]
    have hlen' : ∀ q' ∈ ps, q'.2.length = (setColVals t q.1 q.2).rows.length := by
      intro q' hq'
      rw [setColVals_rows_length t q.1 q.2 (hlen q (List.mem_cons_self _ _))]
      exact hlen q' (List.mem_cons_of_mem _ hq')
    by_cases hq : c = q.1
    · have hnot : c ∉ ps.map Prod.fst := by
        rw [List.map_cons] at hnd
        rw [hq]
        exact (List.nodup_cons.1 hnd).1
      refine ⟨q.2, ?_, ?_⟩
      · rw [hq]
        exact List.mem_cons_self _ _
      · rw [setColsList_getCol_not_mem ps (setColVals t q.1 q.2) c hnot
          (setColVals_WF t q.1 q.2 hW) hlen', hq,
          getColVals_setColVals_self t q.1 q.2 hW (hlen q (List.mem_cons_self _ _))]
    · have hc2 : c ∈ ps.map Prod.fst := by
        rw [List.map_cons] at hc
        rcases List.mem_cons.1 hc with h | h
        · exact absurd h hq
        · exact h
      obtain ⟨vs, hmem, hval⟩ := ih (setColVals t q.1 q.2)
        (by rw [List.map_cons] at hnd; exact (List.nodup_cons.1 hnd).2) hc2
        (setColVals_WF t q.1 q.2 hW) hlen'
      exact ⟨vs, List.mem_cons_of_mem _ hmem, hval⟩

theorem uniformBinEdges_length_le (xs : List Rat) (n_bins : Nat) :
    (uniformBinEdges xs n_bins).length ≤ n_bins - 1 := by
  simp only [uniformBinEdges]
  by_cases h : listMin xs = listMax xs
  · rw [if_pos h]
    simp
  · rw [if_neg h, List.length_map, List.length_range]

theorem binIndex_bound (edges : List Rat) (x : Rat) (n_bins : Nat)
    (he : edges.length ≤ n_bins - 1) (h1 : 1 ≤ n_bins) :
    0 ≤ binIndex edges x ∧ binIndex edges x ≤ (n_bins : Rat) - 1 := by
  unfold binIndex
  constructor
  · positivity
  · have hc : edges.countP (fun e => decide (e ≤ x)) ≤ n_bins - 1 :=
      le_trans (List.countP_le_length _) he
    calc ((edges.countP (fun e => decide (e ≤ x)) : Nat) : Rat)
        ≤ ((n_bins - 1 : Nat) : Rat) := by exact_mod_cast hc
      _ = (n_bins : Rat) - 1 := by
          rw [Nat.cast_sub h1]
          norm_num

theorem kbinsFit_mem_length_le (sub : Table) (n_bins : Nat) (es : List Rat)
    (hes : es ∈ kbinsFit sub n_bins) : es.length ≤ n_bins - 1 := by
  unfold kbinsFit at hes
  obtain ⟨j, hj, he⟩ := List.mem_map.1 hes
  rw [← he]
  exact uniformBinEdges_length_le _ _

theorem getD_zipWith_binIndex (edges : List (List Rat)) (r : List Rat) (i : Nat) :
    (List.zipWith binIndex edges r).getD i 0 = 0 ∨
    ∃ es ∈ edges, ∃ x, (List.zipWith binIndex edges r).getD i 0 = binIndex es x := by
  induction edges generalizing r i with
  | nil => exact Or.inl rfl
  | cons es edges ih =>
    cases r with
    | nil => exact Or.inl rfl
    | cons x r =>
      cases i with
      | zero => exact Or.inr ⟨es, List.mem_cons_self _ _, x, rfl⟩
      | succ k =>
        rcases ih r k with h | ⟨es', hes', x', he'⟩
        · exact Or.inl h
        · exact Or.inr ⟨es', List.mem_cons_of_mem _ hes', x', he'⟩

theorem getColVals_eq_col (t : Table) (c : String) (j : Nat)
    (h : colIdx t.cols c = some j) : getColVals t c = colAt t j := by
  unfold getColVals
  rw [h]

theorem getColVals_eq_nil (t : Table) (c : String)
    (h : colIdx t.cols c = none) : getColVals t c = [] := by
  unfold getColVals
  rw [h]

theorem zero_le_bins (n_bins : Nat) (h1 : 1 ≤ n_bins) : (0 : Rat) ≤ (n_bins : Rat) - 1 := by
  have h : (1 : Rat) ≤ (n_bins : Rat) := by exact_mod_cast h1
  linarith

theorem getColVals_selectColumns_sub (T : Table) (names : List String) (c : String)
    (v : Rat) (hv : v ∈ getColVals (selectColumns T names) c) :
    v ∈ getColVals T c ∨ v = 0 := by
  cases hn : colIdx names c with
  | none =>
    rw [getColVals_eq_nil _ _ hn] at hv
    simp at hv
  | some p =>
    rw [getColVals_eq_col _ _ p hn] at hv
    unfold colAt selectColumns at hv
    simp only [List.map_map] at hv
    obtain ⟨r, hr, hre⟩ := List.mem_map.1 hv
    simp only [Function.comp] at hre
    rw [map_getD_lt names (cellAt T.cols r) p 0 "" (colIdx_lt_length names c p hn),
      colIdx_getD names c p hn] at hre
    rw [← hre]
    unfold cellAt
    cases hj : colIdx T.cols c with
    | none => exact Or.inr rfl
    | some j =>
      left
      rw [getColVals_eq_col _ _ j hj]
      exact List.mem_map.2 ⟨r, hr, rfl⟩

/-- Any value of a listed continuous column after sub-frame assignment of the
transformed sub-frame is an ordinal bin index produced by `binIndex` (or the
padding 0), hence lies in `[0, n_bins - 1]`. -/
theorem setColumns_transform_bound (X : Table) (continuous_attrs : List String)
    (edges : List (List Rat)) (n_bins : Nat) (c : String) (v : Rat)
    (hW : X.WF) (hnd : continuous_attrs.Nodup) (hc : c ∈ continuous_attrs)
    (h1 : 1 ≤ n_bins) (hedge : ∀ es ∈ edges, es.length ≤ n_bins - 1)
    (hv : v ∈ getColVals (setColumns X continuous_attrs
      (kbinsTransform edges (selectColumns X continuous_attrs))) c) :
    0 ≤ v ∧ v ≤ (n_bins : Rat) - 1 := by
  have hsublen : (subColumns (kbinsTransform edges
      (selectColumns X continuous_attrs))).length = continuous_attrs.length := by
    simp [subColumns, kbinsTransform, selectColumns]
  have hkeys : (continuous_attrs.zip (subColumns (kbinsTransform edges
      (selectColumns X continuous_attrs)))).map Prod.fst = continuous_attrs :=
    List.map_fst_zip _ _ (by rw [hsublen])
  have hlen : ∀ q ∈ continuous_attrs.zip (subColumns (kbinsTransform edges
      (selectColumns X continuous_attrs))), q.2.length = X.rows.length := by
    intro q hq
    have h2 := (List.of_mem_zip hq).2
    unfold subColumns at h2
    obtain ⟨j, hj, hje⟩ := List.mem_map.1 h2
    rw [← hje]
    simp [colAt, kbinsTransform, selectColumns]
  unfold setColumns at hv
  obtain ⟨vs, hmem, hval⟩ := setColsList_getCol_mem _ X c
    (by rw [hkeys]; exact hnd) (by rw [hkeys]; exact hc) hW hlen
  rw [hval] at hv
  have hvs := (List.of_mem_zip hmem).2
  unfold subColumns at hvs
  obtain ⟨j, hj, hje⟩ := List.mem_map.1 hvs
  rw [← hje] at hv
  unfold colAt kbinsTransform at hv
  simp only [List.map_map] at hv
  obtain ⟨r, hr, hre⟩ := List.mem_map.1 hv
  simp only [Function.comp] at hre
  rcases getD_zipWith_binIndex edges r j with h0 | ⟨es, hes, x, hx⟩
  · rw [h0] at hre
    rw [← hre]
    exact ⟨le_refl 0, zero_le_bins n_bins h1⟩
  · rw [hx] at hre
    rw [← hre]
    exact binIndex_bound es x n_bins (hedge es hes) h1

/-- C5: after `discretize_data` in either discretising mode, every value of a
listed continuous column of the train and test feature tables is an ordinal
bin index in `[0, n_bins - 1]` — including test values outside the training
range, which clip to the outermost bins. -/
theorem discretize_values_in_bin_range (s : Split) (continuous_attrs : List String)
    (n_bins : Nat) (y_on : String) (c : String) (v : Rat)
    (hW1 : s.trainX.WF) (hW2 : s.testX.WF)
    (hnd : continuous_attrs.Nodup) (hc : c ∈ continuous_attrs) (h1 : 1 ≤ n_bins)
    (hy : y_on = "class" ∨ y_on = "n_children")
    (hv : v ∈ getColVals (discretizeSplit s continuous_attrs n_bins y_on).trainX c ∨
          v ∈ getColVals (discretizeSplit s continuous_attrs n_bins y_on).testX c) :
    0 ≤ v ∧ v ≤ (n_bins : Rat) - 1 := by
  rcases hy with hy | hy <;> subst hy
  · rcases hv with hv | hv
    · exact setColumns_transform_bound s.trainX continuous_attrs
        (kbinsFit (selectColumns s.trainX continuous_attrs) n_bins) n_bins c v
        hW1 hnd hc h1 (fun es hes => kbinsFit_mem_length_le _ _ es hes) hv
    · exact setColumns_transform_bound s.testX continuous_attrs
        (kbinsFit (selectColumns s.trainX continuous_attrs) n_bins) n_bins c v
        hW2 hnd hc h1 (fun es hes => kbinsFit_mem_length_le _ _ es hes) hv
  · rcases hv with hv | hv
    · rcases getColVals_selectColumns_sub _ s.trainX.cols c v hv with h | h0
      · exact setColumns_transform_bound
          (setColVals s.trainX "n_children" (pdVals s.trainY)) continuous_attrs
          (kbinsFit (selectColumns (setColVals s.trainX "n_children" (pdVals s.trainY))
            continuous_attrs) n_bins) n_bins c v
          (setColVals_WF s.trainX "n_children" (pdVals s.trainY) hW1) hnd hc h1
          (fun es hes => kbinsFit_mem_length_le _ _ es hes) h
      · rw [h0]
        exact ⟨le_refl 0, zero_le_bins n_bins h1⟩
    · rcases getColVals_selectColumns_sub _ s.trainX.cols c v hv with h | h0
      · exact setColumns_transform_bound
          (setColVals s.testX "n_children" (pdVals s.testY)) continuous_attrs
          (kbinsFit (selectColumns (setColVals s.trainX "n_children" (pdVals s.trainY))
            continuous_attrs) n_bins) n_bins c v
          (setColVals_WF s.testX "n_children" (pdVals s.testY) hW2) hnd hc h1
          (fun es hes => kbinsFit_mem_length_le _ _ es hes) h
      · rw [h0]
        exact ⟨le_refl 0, zero_le_bins n_bins h1⟩

/-- Witness for C5 at a concrete split (constant training column, so a single
bin; the test value 5 lies outside the training range and still lands in a
legal bin). -/
theorem discretize_values_in_bin_range_witness :
    0 ≤ (0 : Rat) ∧ (0 : Rat) ≤ ((10 : Nat) : Rat) - 1 :=
  discretize_values_in_bin_range
    ⟨⟨["a"], [[1], [1]]⟩, PdValue.frame ⟨["class"], [[0], [1]]⟩,
      ⟨["a"], [[5]]⟩, PdValue.frame ⟨["class"], [[1]]⟩⟩
    ["a"] 10 "class" "a" 0
    (by decide) (by decide) (by decide) (by decide) (by decide)
    (Or.inl rfl) (Or.inl (by decide))

theorem ratio_unit (a b : Rat) (h0 : 0 ≤ a) (hab : a ≤ b) : 0 ≤ a / b ∧ a / b ≤ 1 := by
  rcases eq_or_lt_of_le (le_trans h0 hab) with hb | hb
  · have ha : a = 0 := le_antisymm (hb ▸ hab) h0
    rw [ha, zero_div]
    norm_num
  · exact ⟨div_nonneg h0 (le_of_lt hb), (div_le_one hb).2 hab⟩

theorem pyRound_unit (x : Rat) (prec : Nat) (h0 : 0 ≤ x) (h1 : x ≤ 1) :
    0 ≤ pyRound x prec ∧ pyRound x prec ≤ 1 := by
  unfold pyRound
  have hp : (0 : Rat) < (10 : Rat) ^ prec := by positivity
  have hlo : (0 : Int) ≤ round (x * (10 : Rat) ^ prec) := by
    rw [round_eq]
    exact Int.le_floor.2 (by push_cast; nlinarith)
  have h12 : ⌊(1 / 2 : Rat)⌋ = 0 := by
    rw [Int.floor_eq_zero_iff]
    constructor <;> norm_num
  have hhi : round (x * (10 : Rat) ^ prec) ≤ (10 : Int) ^ prec := by
    rw [round_eq]
    calc ⌊x * (10 : Rat) ^ prec + 1 / 2⌋
        ≤ ⌊(((10 : Int) ^ prec : Int) : Rat) + 1 / 2⌋ := by
          apply Int.floor_mono
          push_cast
          nlinarith
      _ = (10 : Int) ^ prec + ⌊(1 / 2 : Rat)⌋ := Int.floor_int_add _ _
      _ = (10 : Int) ^ prec := by rw [h12, add_zero]
  constructor
  · apply div_nonneg _ (le_of_lt hp)
    exact_mod_cast hlo
  · rw [div_le_one hp]
    calc ((round (x * (10 : Rat) ^ prec) : Int) : Rat)
        ≤ (((10 : Int) ^ prec : Int) : Rat) := by exact_mod_cast hhi
      _ = (10 : Rat) ^ prec := by push_cast; ring

theorem pyRound_one (prec : Nat) : pyRound 1 prec = 1 := by
  unfold pyRound
  rw [one_mul, show ((10 : Rat) ^ prec) = (((10 : Int) ^ prec : Int) : Rat) by push_cast; ring,
    round_intCast, div_self (by positivity)]

theorem pyRound_form (x : Rat) (prec : Nat) :
    ∃ k : Int, pyRound x prec = (k : Rat) / (10 : Rat) ^ prec :=
  ⟨round (x * (10 : Rat) ^ prec), rfl⟩

theorem countP_zip_le_right (yt yp : List Rat) (c : Rat) :
    (yt.zip yp).countP (fun p => decide (p.1 = c) && decide (p.2 = c)) ≤
      yp.countP (fun x => decide (x = c)) := by
  induction yt generalizing yp with
  | nil => simp
  | cons a as ih =>
    cases yp with
    | nil => simp
    | cons b bs =>
      rw [List.zip_cons_cons, List.countP_cons, List.countP_cons]
      have h := ih bs
      by_cases hb : b = c <;> by_cases ha : a = c <;> simp [ha, hb] <;> omega

theorem countP_zip_le_left (yt yp : List Rat) (c : Rat) :
    (yt.zip yp).countP (fun p => decide (p.1 = c) && decide (p.2 = c)) ≤
      yt.countP (fun x => decide (x = c)) := by
  induction yt generalizing yp with
  | nil => simp
  | cons a as ih =>
    cases yp with
    | nil => simp
    | cons b bs =>
      rw [List.zip_cons_cons, List.countP_cons, List.countP_cons]
      have h := ih bs
      by_cases hb : b = c <;> by_cases ha : a = c <;> simp [ha, hb] <;> omega

theorem accuracy_score_unit (y_true y_pred : List Rat) :
    0 ≤ accuracy_score y_true y_pred ∧ accuracy_score y_true y_pred ≤ 1 := by
  unfold accuracy_score
  apply ratio_unit
  · positivity
  · have h : (y_true.zip y_pred).countP (fun p => decide (p.1 = p.2)) ≤ y_true.length :=
      le_trans (List.countP_le_length _) (by rw [List.length_zip]; exact min_le_left _ _)
    exact_mod_cast h

theorem precClass_unit (y_true y_pred : List Rat) (c : Rat) :
    0 ≤ precClass y_true y_pred c ∧ precClass y_true y_pred c ≤ 1 := by
  unfold precClass truePos labelCount
  apply ratio_unit
  · positivity
  · exact_mod_cast countP_zip_le_right y_true y_pred c

theorem recClass_unit (y_true y_pred : List Rat) (c : Rat) :
    0 ≤ recClass y_true y_pred c ∧ recClass y_true y_pred c ≤ 1 := by
  unfold recClass truePos labelCount
  apply ratio_unit
  · positivity
  · exact_mod_cast countP_zip_le_left y_true y_pred c

theorem f1_unit (p r : Rat) (hp : 0 ≤ p ∧ p ≤ 1) (hr : 0 ≤ r ∧ r ≤ 1) :
    0 ≤ 2 * p * r / (p + r) ∧ 2 * p * r / (p + r) ≤ 1 := by
  apply ratio_unit
  · nlinarith [hp.1, hr.1]
  · nlinarith [hp.1, hp.2, hr.1, hr.2]

theorem f1Class_unit (y_true y_pred : List Rat) (c : Rat) :
    0 ≤ f1Class y_true y_pred c ∧ f1Class y_true y_pred c ≤ 1 := by
  unfold f1Class
  exact f1_unit _ _ (precClass_unit y_true y_pred c) (recClass_unit y_true y_pred c)

theorem mean_unit (L : List Rat) (f : Rat → Rat) (hf : ∀ x ∈ L, 0 ≤ f x ∧ f x ≤ 1) :
    0 ≤ (L.map f).sum / ((L.length : Nat) : Rat) ∧
      (L.map f).sum / ((L.length : Nat) : Rat) ≤ 1 := by
  apply ratio_unit
  · apply List.sum_nonneg
    intro x hx
    obtain ⟨a, ha, he⟩ := List.mem_map.1 hx
    rw [← he]
    exact (hf a ha).1
  · have h : (L.map f).sum ≤ (L.map (fun _ => (1 : Rat))).sum :=
      List.sum_le_sum (fun i hi => (hf i hi).2)
    have h2 : (L.map (fun _ => (1 : Rat))).sum = ((L.length : Nat) : Rat) := by
      rw [show (fun _ : Rat => (1 : Rat)) = Function.const Rat 1 from rfl,
        List.map_const, List.sum_replicate, nsmul_eq_mul, mul_one]
    rw [h2] at h
    exact h

theorem microPrec_unit (y_true y_pred : List Rat) :
    0 ≤ microPrec y_true y_pred ∧ microPrec y_true y_pred ≤ 1 := by
  unfold microPrec
  apply ratio_unit
  · apply List.sum_nonneg
    intro x hx
    obtain ⟨a, ha, he⟩ := List.mem_map.1 hx
    rw [← he]
    positivity
  · apply List.sum_le_sum
    intro c hc
    have h := countP_zip_le_right y_true y_pred c
    exact_mod_cast h

theorem microRec_unit (y_true y_pred : List Rat) :
    0 ≤ microRec y_true y_pred ∧ microRec y_true y_pred ≤ 1 := by
  unfold microRec
  apply ratio_unit
  · apply List.sum_nonneg
    intro x hx
    obtain ⟨a, ha, he⟩ := List.mem_map.1 hx
    rw [← he]
    positivity
  · apply List.sum_le_sum
    intro c hc
    have h := countP_zip_le_left y_true y_pred c
    exact_mod_cast h

theorem precision_score_unit (y_true y_pred : List Rat) (average : String) :
    0 ≤ precision_score y_true y_pred average ∧ precision_score y_true y_pred average ≤ 1 := by
  unfold precision_score
  by_cases h : average = "macro"
  · rw [if_pos h]
    exact mean_unit _ _ (fun c _ => precClass_unit y_true y_pred c)
  · rw [if_neg h]
    exact microPrec_unit y_true y_pred

theorem recall_score_unit (y_true y_pred : List Rat) (average : String) :
    0 ≤ recall_score y_true y_pred average ∧ recall_score y_true y_pred average ≤ 1 := by
  unfold recall_score
  by_cases h : average = "macro"
  · rw [if_pos h]
    exact mean_unit _ _ (fun c _ => recClass_unit y_true y_pred c)
  · rw [if_neg h]
    exact microRec_unit y_true y_pred

theorem f1_score_unit (y_true y_pred : List Rat) (average : String) :
    0 ≤ f1_score y_true y_pred average ∧ f1_score y_true y_pred average ≤ 1 := by
  unfold f1_score
  by_cases h : average = "macro"
  · rw [if_pos h]
    exact mean_unit _ _ (fun c _ => f1Class_unit y_true y_pred c)
  · rw [if_neg h]
    exact f1_unit _ _ (microPrec_unit y_true y_pred) (microRec_unit y_true y_pred)

theorem zip_self_eq_map (l : List Rat) : l.zip l = l.map (fun a => (a, a)) := by
  induction l with
  | nil => rfl
  | cons a t ih => rw [List.zip_cons_cons, List.map_cons, ih]

theorem length_cast_ne_zero (l : List Rat) (h : l ≠ []) : ((l.length : Nat) : Rat) ≠ 0 := by
  have hpos : 0 < l.length := List.length_pos.2 h
  exact_mod_cast Nat.pos_iff_ne_zero.1 hpos

theorem accuracy_score_perfect (l : List Rat) (h : l ≠ []) : accuracy_score l l = 1 := by
  unfold accuracy_score
  rw [zip_self_eq_map, List.countP_map,
    List.countP_eq_length.2 (fun a _ => by simp [Function.comp]),
    div_self (length_cast_ne_zero l h)]

theorem truePos_self (l : List Rat) (c : Rat) : truePos l l c = labelCount l c := by
  unfold truePos labelCount
  rw [zip_self_eq_map, List.countP_map]
  exact List.countP_congr (fun a _ => by simp [Function.comp])

theorem labelCount_pos_of_mem (l : List Rat) (c : Rat) (hc : c ∈ l) :
    0 < labelCount l c :=
  List.countP_pos_iff.2 ⟨c, hc, by simp⟩

theorem mem_of_mem_classLabels (l : List Rat) (c : Rat) (hc : c ∈ classLabels l l) :
    c ∈ l := by
  unfold classLabels at hc
  rw [List.mem_dedup, List.mem_append] at hc
  rcases hc with h | h <;> exact h

theorem classLabels_self_ne_nil (l : List Rat) (h : l ≠ []) : classLabels l l ≠ [] := by
  unfold classLabels
  rw [Ne, List.dedup_eq_nil, List.append_eq_nil]
  exact fun hc => h hc.1

theorem precClass_perfect (l : List Rat) (c : Rat) (hc : c ∈ l) : precClass l l c = 1 := by
  unfold precClass
  rw [truePos_self]
  exact div_self (by exact_mod_cast (labelCount_pos_of_mem l c hc).ne')

theorem recClass_perfect (l : List Rat) (c : Rat) (hc : c ∈ l) : recClass l l c = 1 := by
  unfold recClass
  rw [truePos_self]
  exact div_self (by exact_mod_cast (labelCount_pos_of_mem l c hc).ne')

theorem f1Class_perfect (l : List Rat) (c : Rat) (hc : c ∈ l) : f1Class l l c = 1 := by
  unfold f1Class
  rw [precClass_perfect l c hc, recClass_perfect l c hc]
  norm_num

theorem sum_map_ones (L : List Rat) (f : Rat → Rat) (hf : ∀ x ∈ L, f x = 1) :
    (L.map f).sum = ((L.length : Nat) : Rat) := by
  induction L with
  | nil => rfl
  | cons a t ih =>
    rw [List.map_cons, List.sum_cons, hf a (List.mem_cons_self _ _),
      ih (fun x hx => hf x (List.mem_cons_of_mem _ hx)), List.length_cons]
    push_cast
    ring

theorem micro_sums_perfect (l : List Rat) (h : l ≠ []) :
    ((classLabels l l).map (fun c => ((truePos l l c : Nat) : Rat))).sum =
      ((classLabels l l).map (fun c => ((labelCount l c : Nat) : Rat))).sum ∧
    0 < ((classLabels l l).map (fun c => ((labelCount l c : Nat) : Rat))).sum := by
  constructor
  · exact congrArg List.sum
      (List.map_congr_left (fun c _ => by rw [truePos_self]))
  · cases hL : classLabels l l with
    | nil => exact absurd hL (classLabels_self_ne_nil l h)
    | cons c0 L' =>
      rw [List.map_cons, List.sum_cons]
      have hc0 : c0 ∈ l := mem_of_mem_classLabels l c0 (by rw [hL]; exact List.mem_cons_self _ _)
      have h1 : (1 : Rat) ≤ ((labelCount l c0 : Nat) : Rat) := by
        exact_mod_cast labelCount_pos_of_mem l c0 hc0
      have h2 : 0 ≤ (L'.map (fun c => ((labelCount l c : Nat) : Rat))).sum := by
        apply List.sum_nonneg
        intro x hx
        obtain ⟨a, _, he⟩ := List.mem_map.1 hx
        rw [← he]
        positivity
      linarith

theorem microPrec_perfect (l : List Rat) (h : l ≠ []) : microPrec l l = 1 := by
  unfold microPrec
  obtain ⟨he, hpos⟩ := micro_sums_perfect l h
  dsimp only
  rw [he]
  exact div_self (ne_of_gt hpos)

theorem microRec_perfect (l : List Rat) (h : l ≠ []) : microRec l l = 1 := by
  unfold microRec
  obtain ⟨he, hpos⟩ := micro_sums_perfect l h
  dsimp only
  rw [he]
  exact div_self (ne_of_gt hpos)

theorem precision_score_perfect (l : List Rat) (h : l ≠ []) (average : String) :
    precision_score l l average = 1 := by
  unfold precision_score
  by_cases ha : average = "macro"
  · rw [if_pos ha]
    dsimp only
    rw [sum_map_ones _ _
      (fun c hc => precClass_perfect l c (mem_of_mem_classLabels l c hc)),
      div_self]
    have hpos : 0 < (classLabels l l).length :=
      List.length_pos.2 (classLabels_self_ne_nil l h)
    exact_mod_cast Nat.pos_iff_ne_zero.1 hpos
  · rw [if_neg ha]
    exact microPrec_perfect l h

theorem recall_score_perfect (l : List Rat) (h : l ≠ []) (average : String) :
    recall_score l l average = 1 := by
  unfold recall_score
  by_cases ha : average = "macro"
  · rw [if_pos ha]
    dsimp only
    rw [sum_map_ones _ _
      (fun c hc => recClass_perfect l c (mem_of_mem_classLabels l c hc)),
      div_self]
    have hpos : 0 < (classLabels l l).length :=
      List.length_pos.2 (classLabels_self_ne_nil l h)
    exact_mod_cast Nat.pos_iff_ne_zero.1 hpos
  · rw [if_neg ha]
    exact microRec_perfect l h

theorem f1_score_perfect (l : List Rat) (h : l ≠ []) (average : String) :
    f1_score l l average = 1 := by
  unfold f1_score
  by_cases ha : average = "macro"
  · rw [if_pos ha]
    dsimp only
    rw [sum_map_ones _ _
      (fun c hc => f1Class_perfect l c (mem_of_mem_classLabels l c hc)),
      div_self]
    have hpos : 0 < (classLabels l l).length :=
      List.length_pos.2 (classLabels_self_ne_nil l h)
    exact_mod_cast Nat.pos_iff_ne_zero.1 hpos
  · rw [if_neg ha, microPrec_perfect l h, microRec_perfect l h]
    norm_num

/-- C8: for equal-length nonempty label sequences and either averaging mode,
`get_metrics` returns exactly the four keys accuracy/precision/recall/f1 in
order, every value is a multiple of `10^-prec` lying in `[0, 1]`, and under
perfect prediction (`y_true = y_pred`) all four values are 1. -/
theorem get_metrics_contract (y_true y_pred : List Rat) (average : String) (prec : Nat)
    (hlen : y_true.length = y_pred.length) (hne : y_true ≠ [])
    (havg : average = "micro" ∨ average = "macro") :
    (get_metrics y_true y_pred average prec).map Prod.fst =
      ["accuracy", "precision", "recall", "f1"] ∧
    (∀ q ∈ get_metrics y_true y_pred average prec,
      0 ≤ q.2 ∧ q.2 ≤ 1 ∧ ∃ k : Int, q.2 = (k : Rat) / (10 : Rat) ^ prec) ∧
    (y_true = y_pred → ∀ q ∈ get_metrics y_true y_pred average prec, q.2 = 1) := by
  refine ⟨rfl, ?_, ?_⟩
  · intro q hq
    unfold get_metrics at hq
    dsimp only at hq
    simp only [List.mem_cons, List.not_mem_nil, or_false] at hq
    rcases hq with rfl | rfl | rfl | rfl
    · have hb := accuracy_score_unit y_true y_pred
      exact ⟨(pyRound_unit _ _ hb.1 hb.2).1, (pyRound_unit _ _ hb.1 hb.2).2, pyRound_form _ _⟩
    · have hb := precision_score_unit y_true y_pred average
      exact ⟨(pyRound_unit _ _ hb.1 hb.2).1, (pyRound_unit _ _ hb.1 hb.2).2, pyRound_form _ _⟩
    · have hb := recall_score_unit y_true y_pred average
      exact ⟨(pyRound_unit _ _ hb.1 hb.2).1, (pyRound_unit _ _ hb.1 hb.2).2, pyRound_form _ _⟩
    · have hb := f1_score_unit y_true y_pred average
      exact ⟨(pyRound_unit _ _ hb.1 hb.2).1, (pyRound_unit _ _ hb.1 hb.2).2, pyRound_form _ _⟩
  · intro hpe q hq
    subst hpe
    unfold get_metrics at hq
    dsimp only at hq
    simp only [List.mem_cons, List.not_mem_nil, or_false] at hq
    rcases hq with rfl | rfl | rfl | rfl
    · show pyRound (accuracy_score y_true y_true) prec = 1
      rw [accuracy_score_perfect y_true hne, pyRound_one]
    · show pyRound (precision_score y_true y_true average) prec = 1
      rw [precision_score_perfect y_true hne average, pyRound_one]
    · show pyRound (recall_score y_true y_true average) prec = 1
      rw [recall_score_perfect y_true hne average, pyRound_one]
    · show pyRound (f1_score y_true y_true average) prec = 1
      rw [f1_score_perfect y_true hne average, pyRound_one]

/-- Witness for C8 at a concrete perfect two-label prediction with macro
averaging and the source's default precision 3. -/
theorem get_metrics_contract_witness :
    (get_metrics [0, 1] [0, 1] "macro" 3).map Prod.fst =
      ["accuracy", "precision", "recall", "f1"] ∧
    (∀ q ∈ get_metrics [0, 1] [0, 1] "macro" 3,
      0 ≤ q.2 ∧ q.2 ≤ 1 ∧ ∃ k : Int, q.2 = (k : Rat) / (10 : Rat) ^ 3) ∧
    (([0, 1] : List Rat) = [0, 1] → ∀ q ∈ get_metrics [0, 1] [0, 1] "macro" 3, q.2 = 1) :=
  get_metrics_contract [0, 1] [0, 1] "macro" 3 rfl (by decide) (Or.inr rfl)

theorem find?_key_map_write_self (l : List (Nat × PdValue)) (r : Nat) (v : PdValue)
    (q0 : Nat × PdValue) (hq : l.find? (fun q => q.1 == r) = some q0) :
    (l.map (fun q => if q.1 == r then (r, v) else q)).find? (fun q => q.1 == r) =
      some (r, v) := by
  induction l with
  | nil => cases hq
  | cons q l ih =>
    rw [List.map_cons]
    by_cases hr : q.1 = r
    · have h1 : ((if q.1 == r then (r, v) else q) : Nat × PdValue) = (r, v) := by
        simp [hr]
      rw [h1, List.find?_cons_of_pos _ (by simp)]
    · have h1 : ((if q.1 == r then (r, v) else q) : Nat × PdValue) = q := by
        simp [hr]
      rw [h1, List.find?_cons_of_neg _ (by simp [hr])]
      rw [List.find?_cons_of_neg _ (by simp [hr])] at hq
      exact ih hq

theorem heap_getV_write_self (h : Heap) (r : Nat) (v : PdValue) (q0 : Nat × PdValue)
    (hq : h.mem.find? (fun q => q.1 == r) = some q0) :
    (h.write r v).getV r = v := by
  simp only [Heap.write, Heap.getV, Heap.get]
  rw [find?_key_map_write_self _ _ _ _ hq]
  rfl

theorem asTable_of_isFrame (v : PdValue) (hf : v.isFrame = true) :
    PdValue.frame (asTable v) = v := by
  cases v with
  | frame t => rfl
  | series n vs => cases hf

theorem find?_cons_key_ne (k r : Nat) (v : PdValue) (mem : List (Nat × PdValue))
    (hne : k ≠ r) :
    ((k, v) :: mem).find? (fun q => q.1 == r) = mem.find? (fun q => q.1 == r) :=
  List.find?_cons_of_neg _ (by simp [hne])

theorem find?_cons_key_self (k : Nat) (v : PdValue) (mem : List (Nat × PdValue)) :
    ((k, v) :: mem).find? (fun q => q.1 == k) = some (k, v) :=
  List.find?_cons_of_pos _ (by simp)

theorem find?_mk4_0 (n : Nat) (v1 v2 v3 v4 : PdValue) (mem : List (Nat × PdValue)) :
    ((n + 1 + 1 + 1, v4) :: (n + 1 + 1, v3) :: (n + 1, v2) :: (n, v1) :: mem).find?
      (fun q => q.1 == n) = some (n, v1) := by
  rw [find?_cons_key_ne _ _ _ _ (by omega), find?_cons_key_ne _ _ _ _ (by omega),
    find?_cons_key_ne _ _ _ _ (by omega), find?_cons_key_self]

theorem find?_mk4_2 (n : Nat) (v1 v2 v3 v4 : PdValue) (mem : List (Nat × PdValue)) :
    ((n + 1 + 1 + 1, v4) :: (n + 1 + 1, v3) :: (n + 1, v2) :: (n, v1) :: mem).find?
      (fun q => q.1 == n + 1 + 1) = some (n + 1 + 1, v3) := by
  rw [find?_cons_key_ne _ _ _ _ (by omega), find?_cons_key_self]

theorem heap_getV_mk4_0 (N n : Nat) (v1 v2 v3 v4 : PdValue) (mem : List (Nat × PdValue)) :
    Heap.getV ⟨N, (n + 1 + 1 + 1, v4) :: (n + 1 + 1, v3) :: (n + 1, v2) :: (n, v1) :: mem⟩
      n = v1 := by
  rw [heap_getV_cons_ne _ _ _ _ _ (by omega), heap_getV_cons_ne _ _ _ _ _ (by omega),
    heap_getV_cons_ne _ _ _ _ _ (by omega), heap_getV_cons_self]

theorem heap_getV_mk4_1 (N n : Nat) (v1 v2 v3 v4 : PdValue) (mem : List (Nat × PdValue)) :
    Heap.getV ⟨N, (n + 1 + 1 + 1, v4) :: (n + 1 + 1, v3) :: (n + 1, v2) :: (n, v1) :: mem⟩
      (n + 1) = v2 := by
  rw [heap_getV_cons_ne _ _ _ _ _ (by omega), heap_getV_cons_ne _ _ _ _ _ (by omega),
    heap_getV_cons_self]

theorem heap_getV_mk4_2 (N n : Nat) (v1 v2 v3 v4 : PdValue) (mem : List (Nat × PdValue)) :
    Heap.getV ⟨N, (n + 1 + 1 + 1, v4) :: (n + 1 + 1, v3) :: (n + 1, v2) :: (n, v1) :: mem⟩
      (n + 1 + 1) = v3 := by
  rw [heap_getV_cons_ne _ _ _ _ _ (by omega), heap_getV_cons_self]

theorem heap_getV_mk4_3 (N n : Nat) (v1 v2 v3 v4 : PdValue) (mem : List (Nat × PdValue)) :
    Heap.getV ⟨N, (n + 1 + 1 + 1, v4) :: (n + 1 + 1, v3) :: (n + 1, v2) :: (n, v1) :: mem⟩
      (n + 1 + 1 + 1) = v4 := by
  rw [heap_getV_cons_self]

theorem heap_getV_write2_inner (h : Heap) (r1 r2 : Nat) (v1 v2 : PdValue)
    (q0 : Nat × PdValue) (hne : r1 ≠ r2)
    (hq : h.mem.find? (fun q => q.1 == r1) = some q0) :
    ((h.write r1 v1).write r2 v2).getV r1 = v1 := by
  rw [heap_getV_write_ne _ _ _ _ hne]
  exact heap_getV_write_self _ _ _ _ hq

theorem heap_getV_write2_outer (h : Heap) (r1 r2 : Nat) (v1 v2 : PdValue)
    (q0 : Nat × PdValue) (hne : r2 ≠ r1)
    (hq : h.mem.find? (fun q => q.1 == r2) = some q0) :
    ((h.write r1 v1).write r2 v2).getV r2 = v2 := by
  apply heap_getV_write_self _ _ _ q0
  simp only [Heap.write]
  rw [find?_key_map_write _ _ _ _ hne, hq]

theorem heap_getV_write2_other (h : Heap) (r1 r2 s : Nat) (v1 v2 : PdValue)
    (h1 : s ≠ r1) (h2 : s ≠ r2) :
    ((h.write r1 v1).write r2 v2).getV s = h.getV s := by
  rw [heap_getV_write_ne _ _ _ _ h2, heap_getV_write_ne _ _ _ _ h1]

/-- The heap-level `discretize_data` computes exactly the value-level
`discretizeSplit`: reading the returned split's four slots out of the final
heap yields the components of the pure transformation applied to the input
slots' contents (the two feature slots are frames, as pandas guarantees). -/
theorem discretize_data_models_value (h : Heap) (data : SplitRef)
    (continuous_attrs : List String) (n_bins : Nat) (y_on : String)
    (hf1 : (h.getV data.trainX).isFrame = true)
    (hf2 : (h.getV data.testX).isFrame = true) :
    (discretize_data h data continuous_attrs n_bins y_on).1.getV
        (discretize_data h data continuous_attrs n_bins y_on).2.trainX =
      PdValue.frame ((discretizeSplit
        ⟨asTable (h.getV data.trainX), h.getV data.trainY,
         asTable (h.getV data.testX), h.getV data.testY⟩
        continuous_attrs n_bins y_on).trainX) ∧
    (discretize_data h data continuous_attrs n_bins y_on).1.getV
        (discretize_data h data continuous_attrs n_bins y_on).2.trainY =
      (discretizeSplit
        ⟨asTable (h.getV data.trainX), h.getV data.trainY,
         asTable (h.getV data.testX), h.getV data.testY⟩
        continuous_attrs n_bins y_on).trainY ∧
    (discretize_data h data continuous_attrs n_bins y_on).1.getV
        (discretize_data h data continuous_attrs n_bins y_on).2.testX =
      PdValue.frame ((discretizeSplit
        ⟨asTable (h.getV data.trainX), h.getV data.trainY,
         asTable (h.getV data.testX), h.getV data.testY⟩
        continuous_attrs n_bins y_on).testX) ∧
    (discretize_data h data continuous_attrs n_bins y_on).1.getV
        (discretize_data h data continuous_attrs n_bins y_on).2.testY =
      (discretizeSplit
        ⟨asTable (h.getV data.trainX), h.getV data.trainY,
         asTable (h.getV data.testX), h.getV data.testY⟩
        continuous_attrs n_bins y_on).testY := by
  simp only [discretize_data, discretizeSplit, Heap.alloc]
  split_ifs <;> dsimp only
  · refine ⟨?_, ?_, ?_, ?_⟩
    · rw [heap_getV_write2_inner _ _ _ _ _ _ (by omega) (find?_mk4_0 _ _ _ _ _ _)]
      simp only [heap_getV_mk4_0, heap_getV_mk4_1, heap_getV_mk4_2, heap_getV_mk4_3]
    · refine (heap_getV_write_ne _ _ _ _ ?_).trans
        ((heap_getV_write_ne _ _ _ _ ?_).trans (heap_getV_mk4_1 _ _ _ _ _ _ _)) <;> omega
    · rw [heap_getV_write2_outer _ _ _ _ _ _ (by omega) (find?_mk4_2 _ _ _ _ _ _)]
      simp only [heap_getV_mk4_0, heap_getV_mk4_1, heap_getV_mk4_2, heap_getV_mk4_3]
    · refine (heap_getV_write_ne _ _ _ _ ?_).trans
        ((heap_getV_write_ne _ _ _ _ ?_).trans (heap_getV_mk4_3 _ _ _ _ _ _ _)) <;> omega
  · refine ⟨?_, ?_, ?_, ?_⟩ <;>
      simp only [heap_getV_mk4_0, heap_getV_mk4_1, heap_getV_mk4_2, heap_getV_mk4_3]
  · refine ⟨?_, ?_, ?_, ?_⟩
    · rw [heap_getV_mk4_0]
      exact (asTable_of_isFrame _ hf1).symm
    · rw [heap_getV_mk4_1]
    · rw [heap_getV_mk4_2]
      exact (asTable_of_isFrame _ hf2).symm
    · rw [heap_getV_mk4_3]
